import Mathlib

/-!
Verification development for the `agentic-cursorrules` tool.

The Python sources are shallowly embedded as Lean functions:
  * `project_tree_generator.py` : `generate_tree`, `generate_rich_tree`,
    `find_focus_dirs`, `_find_code_directories`
  * `agent_generator.py` : `generate_agent_files`
  * `main.py` : the config-loading fallback and the per-focus-directory
    tree-snapshot writing loop.

A directory tree on disk is modelled by the inductive type `FSEntry`
(children kept in `os.scandir` order).  Python strings are Lean `String`s;
Python string primitives (`startswith`, `endswith`, `in`, `<`) are modelled
by character-list functions below so that all definitions evaluate inside
the kernel.  Python's code-point comparison of strings is exactly
lexicographic comparison of `Char.toNat`.
-/

/-- Model of Python `s.startswith(p)`: `p.data` is a prefix of `s.data`. -/

def pyStartsWith (s p : String) : Bool :=
  p.data.isPrefixOf s.data

/-- Model of Python `s.endswith(p)`: `p.data` is a suffix of `s.data`. -/

def pyEndsWith (s p : String) : Bool :=
  p.data.isSuffixOf s.data

/-- Occurrence of `needle` as a contiguous sublist of `hay`. -/

def charsContain (needle : List Char) : List Char → Bool
  | [] => needle.isEmpty
  | c :: cs => needle.isPrefixOf (c :: cs) || charsContain needle cs

/-- Model of Python `sub in s` (substring containment). -/

def pyContains (s sub : String) : Bool :=
  charsContain sub.data s.data

/-- Lexicographic code-point comparison of character lists (Python `<=` on
str compares code points). -/

def charsLe : List Char → List Char → Bool
  | [], _ => true
  | _ :: _, [] => false
  | a :: as, b :: bs =>
      if a.toNat = b.toNat then charsLe as bs else decide (a.toNat < b.toNat)

/-- Model of Python `a <= b` on strings (code-point lexicographic order). -/

def pyStrLe (a b : String) : Bool :=
  charsLe a.data b.data

/-- Split a character list on a separator character. -/

def splitChars (sep : Char) : List Char → List (List Char)
  | [] => [[]]
  | c :: cs =>
      let rest := splitChars sep cs
      if c = sep then [] :: rest
      else match rest with
        | [] => [[c]]
        | r :: rs => (c :: r) :: rs

/-- Components of a POSIX relative path string, as in `pathlib.Path(s).parts`
(empty components produced by duplicate or trailing separators are dropped). -/

def pathParts (s : String) : List String :=
  ((splitChars '/' s.data).filter (fun cs => !cs.isEmpty)).map String.mk

/-- Join path components with `/`, as `str()` of a relative `pathlib.Path`. -/

def joinPath : List String → String
  | [] => ""
  | [p] => p
  | p :: ps => p ++ "/" ++ joinPath ps

/-- Model of Python `s.replace('_', '/')` (single-character replacement). -/

def underscoreToSlash (s : String) : String :=
  String.mk (s.data.map (fun c => if c = '_' then '/' else c))

/-! ## Stable sorting

Python's `sorted` is a stable sort.  `List.mergeSort` does not reduce
inside the kernel, so a stable insertion sort is used instead: elements are
taken from the left and each is inserted after every already-placed element
that compares `le` to it, which preserves the relative order of ties. -/

/-- Insert `x` after every element `y` of `l` with `le y x`. -/

def insertLe {α : Type} (le : α → α → Bool) (x : α) : List α → List α
  | [] => [x]
  | y :: ys => if le y x then y :: insertLe le x ys else x :: y :: ys

/-- Stable sort by the boolean relation `le` (left fold of insertions). -/

def sortAux {α : Type} (le : α → α → Bool) : List α → List α → List α
  | acc, [] => acc
  | acc, x :: xs => sortAux le (insertLe le x acc) xs

/-- Stable sort by `le`, modelling Python `sorted(l, key=...)`. -/

def sortLe {α : Type} (le : α → α → Bool) (l : List α) : List α :=
  sortAux le [] l

/-! ## Filesystem model -/

/-- A filesystem entry: a file or a directory with its children in
`os.scandir` order.  Names inside one directory are distinct in any real
filesystem; this well-formedness is `uniqNames` below. -/

inductive FSEntry : Type where
  | file (name : String)
  | dir (name : String) (children : List FSEntry)

/-- Name of an entry (`Path.name`). -/

def FSEntry.name : FSEntry → String
  | .file n => n
  | .dir n _ => n

/-- Model of `Path.is_dir()` for an existing entry. -/

def FSEntry.isDir : FSEntry → Bool
  | .file _ => false
  | .dir _ _ => true

/-- Model of `Path.is_file()` for an existing entry. -/

def FSEntry.isFile (e : FSEntry) : Bool :=
  !e.isDir

/-- Children of a directory entry (empty for a file). -/

def FSEntry.childrenD : FSEntry → List FSEntry
  | .file _ => []
  | .dir _ cs => cs

/-- Boolean no-duplicates check on a list of strings. -/

def nodupB : List String → Bool
  | [] => true
  | x :: xs => !xs.contains x && nodupB xs

mutual
/-- Well-formedness: sibling names are distinct throughout the tree. -/
def uniqNames : FSEntry → Bool
  | .file _ => true
  | .dir _ cs => nodupB (cs.map FSEntry.name) && uniqNamesList cs

/-- List version of `uniqNames`. -/
def uniqNamesList : List FSEntry → Bool
  | [] => true
  | c :: cs => uniqNames c && uniqNamesList cs
end

/-- Resolve a relative path (list of components) below an entry, mirroring
filesystem path lookup: each component selects the child with that name.
Returns the entry reached, or `none` when the path does not exist. -/

def resolvePath (e : FSEntry) : List String → Option FSEntry
  | [] => some e
  | c :: cs =>
      match e with
      | .file _ => none
      | .dir _ children =>
          match children.find? (fun x => x.name == c) with
          | some x => resolvePath x cs
          | none => none

/-- Model of `p.exists() and p.is_dir()` for a path below `e`. -/

def isDirAt (e : FSEntry) (p : List String) : Bool :=
  match resolvePath e p with
  | some x => x.isDir
  | none => false

/-! ## Tree renderer (`ProjectTreeGenerator.generate_tree`) -/

/-- Sort key of `sorted(items, key=lambda x: (not x.is_file(), x.name))`:
Python tuple order on `(bool, str)` with `not is_file() = is_dir()` —
files (`False`) before directories (`True`), then name by code points. -/

def itemLe (a b : FSEntry) : Bool :=
  if a.isDir = b.isDir then pyStrLe a.name b.name else b.isDir

/-- Model of `sorted(list(dir_path.iterdir()), key=lambda x: (not x.is_file(), x.name))`
(both `sorted` and `sortLe` are stable). -/

def sortItems (items : List FSEntry) : List FSEntry :=
  sortLe itemLe items

/-- Static data of `ProjectTreeGenerator` plus the arguments of
`generate_tree` / `generate_rich_tree`. -/

structure RenderCfg where
  /-- `self.EXCLUDE_DIRS` (from config). -/
  excludeDirs : List String
  /-- `self.matches`, the gitignore matcher, applied to `str(item)` (the
  absolute path of the item). -/
  gitMatches : String → Bool
  /-- `self.INCLUDE_EXTENSIONS` (from config). -/
  includeExtensions : List String
  /-- `str(self.project_root)`: absolute-path text of the project root. -/
  projectRootStr : String
  /-- `file_types` argument (`None` when absent). -/
  fileTypes : Option (List String)
  /-- `max_depth` argument (default 3). -/
  maxDepth : Nat
  /-- `skip_dirs` argument: path strings relative to the project root. -/
  skipDirs : List String
  /-- `config_paths` argument. -/
  configPaths : List String

/-- Path string of `item` relative to the project root
(`str(item.relative_to(self.project_root))`). -/

def relStrOf (relPath : List String) : String :=
  joinPath relPath

/-- Absolute path string of an item (`str(item)`). -/

def absStrOf (cfg : RenderCfg) (relPath : List String) : String :=
  cfg.projectRootStr ++ "/" ++ relStrOf relPath

/-- The skip test of `generate_tree` / `generate_rich_tree`:
`item.name in self.EXCLUDE_DIRS or self.matches(str(item)) or
rel_path in skip_dirs or (item.is_dir() and any(cp.startswith(rel_path) for cp in config_paths))`. -/

def shouldSkip (cfg : RenderCfg) (item : FSEntry) (relPath : List String) : Bool :=
  cfg.excludeDirs.contains item.name
  || cfg.gitMatches (absStrOf cfg relPath)
  || cfg.skipDirs.contains (relStrOf relPath)
  || (item.isDir && cfg.configPaths.any (fun cp => pyStartsWith cp (relStrOf relPath)))

/-- `extensions_to_check = file_types if file_types else self.INCLUDE_EXTENSIONS`
(`None` and the empty list are both falsy in Python). -/

def extensionsToCheck (cfg : RenderCfg) : List String :=
  match cfg.fileTypes with
  | none => cfg.includeExtensions
  | some l => if l.isEmpty then cfg.includeExtensions else l

/-- The file filter `any(item.name.endswith(ext) for ext in extensions_to_check)`. -/

def extOk (cfg : RenderCfg) (name : String) : Bool :=
  (extensionsToCheck cfg).any (fun ext => pyEndsWith name ext)

/-- One rendered entry of the flat tree: the path of the item relative to
the project root, whether it is a directory, its name, and the text line
appended to `tree_lines` for it. -/

structure RenderedItem where
  relPath : List String
  isDirE : Bool
  name : String
  line : String
deriving DecidableEq

/-- Inner recursion `_generate_tree(dir_path, prefix, depth)` of
`generate_tree`, instrumented to record, for each appended line, the item
it came from.  `relDir` is the path of `dir_path` relative to the project
root.  The `depth` counter of the source is replaced by the fuel
`fuel = max_depth + 1 - depth`; the guard `depth > max_depth` is `fuel = 0`. -/

def genTreeAux (cfg : RenderCfg) : Nat → List String → List FSEntry → String → List RenderedItem
  | 0, _, _, _ => []
  | fuel + 1, relDir, children, pre =>
      let items := sortItems children
      items.enum.flatMap (fun (ix : Nat × FSEntry) =>
        let i := ix.1
        let item := ix.2
        let relPath := relDir ++ [item.name]
        if shouldSkip cfg item relPath then []
        else
          let isLast := decide (i = items.length - 1)
          let connector := if isLast then "└── " else "├── "
          match item with
          | .dir n cs =>
              ⟨relPath, true, n, pre ++ connector ++ n ++ "/"⟩ ::
                genTreeAux cfg fuel relPath cs (pre ++ (if isLast then "    " else "│   "))
          | .file n =>
              if extOk cfg n then [⟨relPath, false, n, pre ++ connector ++ n⟩] else [])

/-- Instrumented `generate_tree(directory, ...)`: `rootRel` is the path of
`directory` relative to the project root, `children` its entries. -/

def genItems (cfg : RenderCfg) (rootRel : List String) (children : List FSEntry) :
    List RenderedItem :=
  genTreeAux cfg (cfg.maxDepth + 1) rootRel children ""

/-- `generate_tree` proper: the list of text lines returned for the file. -/

def generate_tree (cfg : RenderCfg) (rootRel : List String) (children : List FSEntry) :
    List String :=
  (genItems cfg rootRel children).map RenderedItem.line

/-! ## Rich renderer (`ProjectTreeGenerator.generate_rich_tree`) -/

/-- A Rich `Tree` node: its label markup and its added children in order. -/

inductive RTree : Type where
  | node (label : String) (children : List RTree)

/-- Label markup added for a file (`parent_tree.add(f":page_facing_up: {item.name}")`). -/

def fileLabel (n : String) : String :=
  ":page_facing_up: " ++ n

/-- Label markup added for a directory branch. -/

def dirLabel (n : String) : String :=
  ":file_folder: [bold blue]" ++ n ++ "[/]"

/-- Label markup of the root node of `generate_rich_tree`. -/

def rootLabel (n : String) : String :=
  ":open_file_folder: [bold blue]" ++ n ++ "[/]"

/-- Inner recursion `_build_tree(dir_path, parent_tree, depth)` of
`generate_rich_tree`: the children added under `parent_tree` for the
directory with project-relative path `relDir` and entries `children`.
The same fuel convention as `genTreeAux` replaces the `depth` counter. -/

def buildRich (cfg : RenderCfg) : Nat → List String → List FSEntry → List RTree
  | 0, _, _ => []
  | fuel + 1, relDir, children =>
      (sortItems children).flatMap (fun item =>
        let relPath := relDir ++ [item.name]
        if shouldSkip cfg item relPath then []
        else
          match item with
          | .dir n cs => [RTree.node (dirLabel n) (buildRich cfg fuel relPath cs)]
          | .file n => if extOk cfg n then [RTree.node (fileLabel n) []] else [])

/-- `generate_rich_tree(directory, ...)`: root node labelled with the
directory name, children built by `_build_tree`. -/

def generate_rich_tree (cfg : RenderCfg) (dirName : String) (rootRel : List String)
    (children : List FSEntry) : RTree :=
  RTree.node (rootLabel dirName) (buildRich cfg (cfg.maxDepth + 1) rootRel children)

mutual
/-- Preorder sequence of the labels of a Rich tree. -/
def rtreeLabels : RTree → List String
  | .node l cs => l :: rtreeLabelsList cs

/-- Preorder label sequence of a forest of Rich trees. -/
def rtreeLabelsList : List RTree → List String
  | [] => []
  | t :: ts => rtreeLabels t ++ rtreeLabelsList ts
end

/-- The Rich label that corresponds to a flat rendered entry. -/

def entryLabel (it : RenderedItem) : String :=
  if it.isDirE then dirLabel it.name else fileLabel it.name

/-- A matcher that matches nothing (project with no `.gitignore` patterns). -/

def noMatch : String → Bool := fun _ => false

/-- Example configuration mirroring the repository test
(`include_extensions = [.py, .txt]`, `exclude_dirs = [ignored_dir]`). -/

def exampleCfg : RenderCfg :=
  ⟨["ignored_dir"], noMatch, [".py", ".txt"], "/proj", none, 3, [], []⟩

/-- Example `src` directory of the spec's end-to-end example. -/

def exampleSrc : List FSEntry :=
  [.file "main.py", .file "readme.txt", .file "ignored.log"]

/-! ## Focus resolver (`ProjectTreeGenerator.find_focus_dirs`) -/

/-- Absolute path string of a directory found by the resolver
(`str(d)` for `d = (directory / rel).resolve()`). -/

def absPathStr (rootStr : String) (p : List String) : String :=
  rootStr ++ "/" ++ joinPath p

/-- Normalisation of one focus identifier: identifiers containing `__` are
kept verbatim, identifiers with single `_` and no `/` have `_` replaced by
`/`, anything else is kept; the result is its `Path(...).parts`. -/

def normalizeFocus (fd : String) : List String :=
  if pyContains fd "__" then pathParts fd
  else if pyContains fd "_" && !pyContains fd "/" then pathParts (underscoreToSlash fd)
  else pathParts fd

/-- Key of `normalized_focus_dirs.sort(key=lambda p: len(p.parts))`. -/

def depthLe (a b : List String) : Bool :=
  decide (a.length ≤ b.length)

/-- Stable sort of the normalised identifiers by path depth. -/

def sortByDepth (l : List (List String)) : List (List String) :=
  sortLe depthLe l

mutual
/-- Model of `os.walk(str(directory))` started below a directory entry:
top-down preorder list of `(relative path of root, names of subdirectories)`.
Subdirectory names are listed in `os.scandir` order. -/
def fsWalk : FSEntry → List String → List (List String × List String)
  | .file _, _ => []
  | .dir _ children, rel =>
      (rel, (children.filter FSEntry.isDir).map FSEntry.name) :: fsWalkList children rel

/-- Walk continuation over the children of a directory. -/
def fsWalkList : List FSEntry → List String → List (List String × List String)
  | [], _ => []
  | c :: cs, rel =>
      (if c.isDir then fsWalk c (rel ++ [c.name]) else []) ++ fsWalkList cs rel
end

/-- The bounded-depth `os.walk` loop of `find_focus_dirs` (strategy 4):
skip roots deeper than 3, append the first subdirectory named `name`, stop
as soon as some found path's string contains `name`. -/

def walkGo (rootStr name : String) :
    List (List String × List String) → List (List String) → List (List String)
  | [], found => found
  | (rel, dirNames) :: rest, found =>
      if rel.length > 3 then walkGo rootStr name rest found
      else
        let found' :=
          match dirNames.find? (fun d => d == name) with
          | some d => found ++ [rel ++ [d]]
          | none => found
        if found'.any (fun p => pyContains (absPathStr rootStr p) name) then found'
        else walkGo rootStr name rest found'

/-- Resolution of a single normalised focus identifier `fp` given the
directories already found: exact path, then top-level name, then one level
below the root, then — unless some found path's string already contains the
name — the bounded-depth walk. -/

def resolveOne (rootStr : String) (tree : FSEntry) (found : List (List String))
    (fp : List String) : List (List String) :=
  let name := fp.getLastD ""
  if isDirAt tree fp then found ++ [fp]
  else if isDirAt tree [name] then found ++ [[name]]
  else
    let found1 :=
      match tree.childrenD.find? (fun it => it.isDir && isDirAt it [name]) with
      | some it => found ++ [[it.name, name]]
      | none => found
    if found1.any (fun d => pyContains (absPathStr rootStr d) name) then found1
    else walkGo rootStr name (fsWalk tree []) found1

/-- The exact-matching phase of `find_focus_dirs` over all identifiers. -/

def focusResolveRaw (rootStr : String) (tree : FSEntry) (focusDirs : List String) :
    List (List String) :=
  (sortByDepth (focusDirs.map normalizeFocus)).foldl (resolveOne rootStr tree) []

/-! ## Code-density fallback (`ProjectTreeGenerator._find_code_directories`) -/

/-- The hard-coded `code_extensions` set of `_find_code_directories`. -/

def codeExtensions : List String :=
  [".py", ".js", ".jsx", ".ts", ".tsx", ".html", ".css", ".scss",
   ".java", ".c", ".cpp", ".h", ".cs", ".go", ".rb", ".php",
   ".vue", ".svelte", ".json", ".yaml", ".yml", ".md"]

/-- The hard-coded `exclude_dirs` set of `_find_code_directories`. -/

def fallbackExcludeDirs : List String :=
  ["node_modules", "dist", "build", ".git", "__pycache__",
   "venv", "env", ".next", "out", "coverage", "tmp", "temp"]

/-- `sum(1 for f in files if any(f.endswith(ext) for ext in code_extensions))`. -/

def countCodeFiles (children : List FSEntry) : Nat :=
  children.countP (fun c => c.isFile && codeExtensions.any (fun ext => pyEndsWith c.name ext))

/-- The pruning `dirs[:] = [d for d in dirs if d not in exclude_dirs and not d.startswith('.')]`. -/

def keepWalkDir (c : FSEntry) : Bool :=
  c.isDir && !fallbackExcludeDirs.contains c.name && !pyStartsWith c.name "."

mutual
/-- Pruned `os.walk` of `_find_code_directories`: for every visited
directory, its relative path and its count of code files. -/
def codeWalk : FSEntry → List String → List (List String × Nat)
  | .file _, _ => []
  | .dir _ children, rel =>
      (rel, countCodeFiles children) :: codeWalkList children rel

/-- Walk continuation over children, descending only into kept directories. -/
def codeWalkList : List FSEntry → List String → List (List String × Nat)
  | [], _ => []
  | c :: cs, rel =>
      (if keepWalkDir c then codeWalk c (rel ++ [c.name]) else []) ++ codeWalkList cs rel
end

/-- The `dir_counts` mapping in insertion order: visited directories at
depth at most 4, with a positive code-file count, the root (`'.'`) skipped. -/

def dirCounts (tree : FSEntry) : List (List String × Nat) :=
  (codeWalk tree []).filter
    (fun rc => decide (rc.1.length ≤ 4) && decide (0 < rc.2) && !rc.1.isEmpty)

/-- Order of `sorted(dir_counts.items(), key=lambda x: -x[1])`: count
descending, stable. -/

def countDescLe (a b : List String × Nat) : Bool :=
  decide (b.2 ≤ a.2)

/-- `_find_code_directories(directory)` (with the default `max_dirs=5`). -/

def find_code_directories (tree : FSEntry) : List (List String) :=
  let top := (sortLe countDescLe (dirCounts tree)).take 5
  (top.filter (fun rc => (resolvePath tree rc.1).isSome)).map (fun rc => rc.1)

/-- `find_focus_dirs(directory, focus_dirs)`: the exact-matching phase,
falling back to code-directory detection when nothing was found. -/

def find_focus_dirs (rootStr : String) (tree : FSEntry) (focusDirs : List String) :
    List (List String) :=
  let found := focusResolveRaw rootStr tree focusDirs
  if found.isEmpty then find_code_directories tree else found

/-! ## Agent document emitter (`generate_agent_files`) -/

/-- Inputs of `generate_agent_files`: the write targets are recorded as
`(directory string, file name)` pairs; `tree_files` is the content of the
`config_dir/tree_files` cache as an association list. -/

structure AgentCfg where
  /-- `str(project_dir)`. -/
  projectDirStr : String
  /-- `str(output_dir)` — the fourth parameter of the function. -/
  outputDirStr : String
  /-- `project_dir.name`. -/
  projectDirName : String
  /-- The project directory on disk. -/
  projectTree : FSEntry
  /-- `(file name, file text)` pairs of the `tree_files` cache directory. -/
  treeFiles : List (String × String)

/-- Observable outcome of one iteration of the loop of `generate_agent_files`. -/

inductive AgentEvent : Type where
  /-- `⚠️ Skipping non-existent directory`. -/
  | skipMissing (relStr : String)
  /-- `⚠️ Skipping duplicate agent file` (the warning names the file). -/
  | skipDuplicate (agentName : String)
  /-- A document written: base directory string, file name, content. -/
  | wrote (baseDir agentName content : String)
deriving DecidableEq

/-- Agent file name derived from the path (lines 44–51 of
`agent_generator.py`); for the relative inputs passed by `main`,
`parent_name` is `None` exactly when the path has a single segment. -/

def agentNameOf (parts : List String) : String :=
  if 2 ≤ parts.length then
    "agent_" ++ parts.headD "" ++ "_" ++ parts.getLastD "" ++ ".md"
  else
    "agent_" ++ parts.getLastD "" ++ ".md"

/-- `parent_name` of the relative path (name of `rel_path.parent`, `None`
for a single-segment path). -/

def parentNameOf (parts : List String) : Option String :=
  if 2 ≤ parts.length then some (parts.getD (parts.length - 2) "") else none

/-- The fixed document template of `agent_generator.py`. -/

def agentContent (desc treeContent : String) : String :=
  "You are an agent that specializes in " ++ desc ++
  " of this project. Your expertise and responses should focus specifically on the code and files within this directory structure:\n\n" ++
  treeContent ++
  "\n\nWhen providing assistance, only reference and modify files within this directory structure. If you need to work with files outside this structure, list the required files and ask the user for permission first."

/-- `dir_description` (lines 67–71). -/

def dirDescOf (cfg : AgentCfg) (parts : List String) : String :=
  let dirName := parts.getLastD ""
  match parentNameOf parts with
  | some p =>
      if p != "" && p != cfg.projectDirName then
        "the " ++ dirName ++ " directory within " ++ p
      else
        "the " ++ dirName ++ " portion"
  | none => "the " ++ dirName ++ " portion"

/-- Tree cache file read for a directory: `tree_files_dir / f'tree_{dir_name}.txt'`. -/

def treeFileNameOf (dirName : String) : String :=
  "tree_" ++ dirName ++ ".txt"

/-- One iteration of the loop of `generate_agent_files` for the relative
path string whose segments are `pathParts d`, given the set of file names
already created in this run.  The written document goes to
`project_dir / agent_name` (line 80 of the source). -/

def processDir (cfg : AgentCfg) (created : List String) (d : String) : AgentEvent :=
  let parts := pathParts d
  if !isDirAt cfg.projectTree parts then .skipMissing d
  else
    let dirName := parts.getLastD ""
    let agentName := agentNameOf parts
    if created.contains agentName then .skipDuplicate agentName
    else
      let treeContent := (cfg.treeFiles.lookup (treeFileNameOf dirName)).getD ""
      .wrote cfg.projectDirStr agentName (agentContent (dirDescOf cfg parts) treeContent)

/-- The loop of `generate_agent_files` with its `created_files` accumulator. -/

def goAgents (cfg : AgentCfg) : List String → List String → List AgentEvent
  | [], _ => []
  | d :: ds, created =>
      let ev := processDir cfg created d
      ev :: goAgents cfg ds
        (match ev with
         | .wrote _ n _ => created ++ [n]
         | _ => created)

/-- `generate_agent_files(focus_dirs, config_dir, project_dir, output_dir)`
as the list of its observable events, in order. -/

def generate_agent_files (cfg : AgentCfg) (focusDirs : List String) : List AgentEvent :=
  goAgents cfg focusDirs []

/-- File names of the documents actually written. -/

def writtenNames (evs : List AgentEvent) : List String :=
  evs.filterMap (fun e =>
    match e with
    | .wrote _ n _ => some n
    | _ => none)

/-! ## Configuration loading in `main` (lines 212–225 of `main.py`) -/

/-- Shape of a parsed YAML value, restricted to what the loader inspects. -/

inductive YamlVal : Type where
  | scalar (s : String)
  | list (xs : List String)
  | dict (entries : List (String × YamlVal))

/-- Result of `yaml.safe_load` on the config file: `malformed` covers an
unreadable file or a parse error (any exception before the shape checks). -/

inductive ConfigLoad : Type where
  | malformed
  | parsed (v : YamlVal)

/-- The `try/except` block of `main`: any failure — parse error, not a
dict, missing `tree_focus`, or a non-list `tree_focus` — is caught and the
hard-coded default `['src', 'app']` is used; the loop body then continues. -/

def loadFocusDirs : ConfigLoad → List String
  | .malformed => ["src", "app"]
  | .parsed v =>
      match v with
      | .dict entries =>
          match entries.lookup "tree_focus" with
          | some (.list xs) => xs
          | some _ => ["src", "app"]
          | none => ["src", "app"]
      | _ => ["src", "app"]

/-- The failure condition of the loader: malformed input, or no dict, or
`tree_focus` absent, or `tree_focus` not a list. -/

def configLoadFails : ConfigLoad → Bool
  | .malformed => true
  | .parsed (.dict entries) =>
      match entries.lookup "tree_focus" with
      | some (.list _) => false
      | _ => true
  | .parsed _ => true

/-! ## Tree-snapshot loop of `main` (lines 236–290 of `main.py`) -/

/-- Static data of a `main` run that the snapshot loop uses. -/

structure PipeCfg where
  /-- `EXCLUDE_DIRS` of the generator. -/
  excludeDirs : List String
  /-- The gitignore matcher of the generator. -/
  gitMatches : String → Bool
  /-- `INCLUDE_EXTENSIONS` of the generator. -/
  includeExtensions : List String
  /-- `str(project_dir)`. -/
  projectRootStr : String
  /-- The project directory on disk. -/
  projectTree : FSEntry
  /-- `project_dir.name`. -/
  projectDirName : String

/-- `any(part.startswith('__') for part in rel_path.parts)`. -/

def hasDunderPart (rel : List String) : Bool :=
  rel.any (fun part => pyStartsWith part "__")

/-- The `skip_dirs` set computed for one focus directory (line 256). -/

def skipDirsFor (found : List (List String)) (rel : List String) : List String :=
  (found.filter (fun d =>
    pyStartsWith (relStrOf d) (relStrOf rel) && decide (d ≠ rel) && hasDunderPart d)).map relStrOf

/-- `config_paths = {str(Path(fd)) for fd in focus_dirs}` (line 239). -/

def configPathsOf (focusIds : List String) : List String :=
  focusIds.map (fun fd => joinPath (pathParts fd))

/-- The `RenderCfg` of the `generate_tree` call made for one focus
directory by the loop (default `file_types`/`max_depth`). -/

def renderCfgFor (cfg : PipeCfg) (focusIds : List String) (skips : List String) : RenderCfg :=
  ⟨cfg.excludeDirs, cfg.gitMatches, cfg.includeExtensions, cfg.projectRootStr,
   none, 3, skips, configPathsOf focusIds⟩

/-- Children of the directory at `rel` below `tree`. -/

def subtreeChildren (tree : FSEntry) (rel : List String) : List FSEntry :=
  match resolvePath tree rel with
  | some (.dir _ cs) => cs
  | _ => []

/-- Text written for a focus directory: `'\n'.join(tree_content)`. -/

def pipeSnap (cfg : PipeCfg) (focusIds : List String) (found : List (List String))
    (rel : List String) : String :=
  String.intercalate "\n"
    (generate_tree (renderCfgFor cfg focusIds (skipDirsFor found rel)) rel
      (subtreeChildren cfg.projectTree rel))

/-- The snapshot loop with its `processed_dirs` accumulator: a focus
directory with no `__` segment whose relative path string starts with an
already-processed one is skipped; otherwise `tree_<name>.txt` is written
with its snapshot. Emits `(file name, content)` writes in order. -/

def pipeWritesGo (cfg : PipeCfg) (focusIds : List String) (found : List (List String)) :
    List (List String) → List (List String) → List (String × String)
  | [], _ => []
  | rel :: rest, processed =>
      if !hasDunderPart rel
          && processed.any (fun pd => pyStartsWith (relStrOf rel) (relStrOf pd)) then
        pipeWritesGo cfg focusIds found rest processed
      else
        (treeFileNameOf (rel.getLastD ""), pipeSnap cfg focusIds found rel)
          :: pipeWritesGo cfg focusIds found rest (processed ++ [rel])

/-- All snapshot writes of one run over the resolved focus directories. -/

def pipeTreeWrites (cfg : PipeCfg) (focusIds : List String)
    (found : List (List String)) : List (String × String) :=
  pipeWritesGo cfg focusIds found found []

/-- Overwriting update of an association list (a later file write replaces
the content stored under the same name). -/

def updateAssoc : List (String × String) → String → String → List (String × String)
  | [], k, v => [(k, v)]
  | (k', v') :: rest, k, v =>
      if k' == k then (k, v) :: rest else (k', v') :: updateAssoc rest k v

/-- Apply a sequence of file writes to a directory state. -/

def applyWrites (ws : List (String × String)) (init : List (String × String)) :
    List (String × String) :=
  ws.foldl (fun m kv => updateAssoc m kv.1 kv.2) init

/-- State of the `tree_files` cache directory at the end of the loop
(the run starts with an empty cache directory). -/

def finalTreeFiles (cfg : PipeCfg) (focusIds : List String)
    (found : List (List String)) : List (String × String) :=
  applyWrites (pipeTreeWrites cfg focusIds found) []

/-- The `AgentCfg` with which `main` then calls `generate_agent_files`
(line 289–290; with `--local-agents` the `output_dir` argument differs
from the project directory). -/

def pipeAgentCfg (cfg : PipeCfg) (outputDirStr : String) (focusIds : List String)
    (found : List (List String)) : AgentCfg :=
  ⟨cfg.projectRootStr, outputDirStr, cfg.projectDirName, cfg.projectTree,
   finalTreeFiles cfg focusIds found⟩

/-- The agent-generation events of a full `main` iteration. -/

def pipeAgentEvents (cfg : PipeCfg) (outputDirStr : String) (focusIds : List String)
    (found : List (List String)) : List AgentEvent :=
  generate_agent_files (pipeAgentCfg cfg outputDirStr focusIds found)
    (found.map relStrOf)

/-! ## Claims -/

/-! ## Structure of the flat renderer output -/

/-- A path below a directory whose every prefix survives the renderer's
filters: each intermediate directory exists, is not skipped, and the final
file exists, is not skipped, and passes the extension filter.  This is the
condition under which the renderer must list the file. -/

def renderableAt (cfg : RenderCfg) (children : List FSEntry) (relDir : List String) :
    List String → Bool
  | [] => false
  | [name] =>
      children.any (fun c =>
        match c with
        | .file n => n == name && !shouldSkip cfg c (relDir ++ [n]) && extOk cfg n
        | .dir _ _ => false)
  | d :: rest =>
      children.any (fun c =>
        match c with
        | .dir n cs =>
            n == d && !shouldSkip cfg c (relDir ++ [n])
              && renderableAt cfg cs (relDir ++ [n]) rest
        | .file _ => false)

/-! ## Ordering of sibling entries (claim C2) -/

/-- The sibling order of rendered items: the `(not is_file, name)` key
order carried over to the recorded entries — files before directories,
names by code points. -/

def itemLeR (a b : RenderedItem) : Bool :=
  if a.isDirE = b.isDirE then pyStrLe a.name b.name else b.isDirE

/-- The order asserted by the specification sentence "directories before
files, alphabetical": key `(is-directory flag, name)` with directories
first. -/

def dirsFirstLe (a b : RenderedItem) : Bool :=
  if a.isDirE = b.isDirE then pyStrLe a.name b.name else a.isDirE

/-! ## Flat and rich renderings agree (claim C7) -/

/-! ## Focus resolution order (claim C3) -/

/-- A directory below `tree` whose name (final path component) is `x`. -/

def dirMatch (tree : FSEntry) (x : String) (p : List String) : Prop :=
  p ≠ [] ∧ p.getLastD "" = x ∧ isDirAt tree p = true

instance (tree : FSEntry) (x : String) (p : List String) : Decidable (dirMatch tree x p) := by
  unfold dirMatch
  infer_instance

/-- Project tree of the C3 witness: `x` at depths 1, 2 and 3. -/

def c3WitnessTree : FSEntry :=
  .dir "r" [.dir "x" [], .dir "a" [.dir "x" [.dir "x" []]]]

/-- Project tree of the C3 counterexample: `x` at depths 3, 4 and 5 only;
the depth-first walk meets the depth-4 match (under `a`) before the
shallower depth-3 match (under `m`). -/

def c3CounterTree : FSEntry :=
  .dir "proj"
    [.dir "a" [.dir "b" [.dir "c" [.dir "x" []]]],
     .dir "m" [.dir "n" [.dir "x" []]],
     .dir "p" [.dir "q" [.dir "r" [.dir "s" [.dir "x" []]]]]]

/-! ## Code-density fallback is productive (claim C4) -/

/-- Project tree of the C4 witness. -/

def c4WitnessTree : FSEntry :=
  .dir "proj" [.dir "src" [.file "main.py"]]

/-! ## Agent files are never overwritten within a run (claim C9) -/

/-- Agent configuration of the C9 witness. -/

def c9Cfg : AgentCfg :=
  ⟨"/proj", "/proj", "proj",
   .dir "proj" [.dir "a" [.dir "p" [.dir "utils" []], .dir "q" [.dir "utils" []]]], []⟩

/-! ## Shared base names and the snapshot cache (claim C10) -/

/-- Pipeline configuration of the C10 witness: `a/kit` and `b/kit` share
the base name `kit`. -/

def c10WitnessPipe : PipeCfg :=
  ⟨[], noMatch, [".py"], "/proj",
   .dir "proj" [.dir "a" [.dir "kit" [.file "x.py"]],
                .dir "b" [.dir "kit" [.file "y.py"]]], "proj"⟩

/-- Project tree of the C10 counterexample: `kit` and `kitx/kit` share the
base name `kit`, and the string `kitx/kit` starts with the string `kit`. -/

def c10CounterPipe : PipeCfg :=
  ⟨[], noMatch, [".py"], "/proj",
   .dir "proj" [.dir "kit" [.file "a.py"], .dir "kitx" [.dir "kit" [.file "b.py"]]],
   "proj"⟩

theorem mem_insertLe {α : Type} (le : α → α → Bool) (x : α) (l : List α) (a : α) :
    a ∈ insertLe le x l ↔ a = x ∨ a ∈ l := by
  induction l with
  | nil => simp [insertLe]
  | cons y ys ih =>
      simp only [insertLe]
      by_cases h : le y x = true
      · rw [if_pos h]
        simp [ih]
        tauto
      · rw [if_neg h]
        simp

theorem mem_sortAux {α : Type} (le : α → α → Bool) (l acc : List α) (a : α) :
    a ∈ sortAux le acc l ↔ a ∈ acc ∨ a ∈ l := by
  induction l generalizing acc with
  | nil => simp [sortAux]
  | cons x xs ih =>
      simp only [sortAux, ih, mem_insertLe]
      simp
      tauto

theorem mem_sortLe {α : Type} (le : α → α → Bool) (l : List α) (a : α) :
    a ∈ sortLe le l ↔ a ∈ l := by
  simp [sortLe, mem_sortAux]

theorem pairwise_insertLe {α : Type} (le : α → α → Bool)
    (htrans : ∀ a b c, le a b = true → le b c = true → le a c = true)
    (htotal : ∀ a b, le a b = true ∨ le b a = true)
    (x : α) (l : List α) (hl : l.Pairwise (fun a b => le a b = true)) :
    (insertLe le x l).Pairwise (fun a b => le a b = true) := by
  induction l with
  | nil => simp [insertLe]
  | cons y ys ih =>
      rw [List.pairwise_cons] at hl
      simp only [insertLe]
      by_cases h : le y x = true
      · rw [if_pos h]
        rw [List.pairwise_cons]
        refine ⟨?_, ih hl.2⟩
        intro a ha
        rw [mem_insertLe] at ha
        rcases ha with rfl | ha
        · exact h
        · exact hl.1 a ha
      · rw [if_neg h]
        rw [List.pairwise_cons]
        have hxy : le x y = true := by
          rcases htotal x y with h' | h'
          · exact h'
          · exact absurd h' h
        refine ⟨?_, List.pairwise_cons.mpr hl⟩
        intro a ha
        rcases List.mem_cons.mp ha with rfl | ha
        · exact hxy
        · exact htrans x y a hxy (hl.1 a ha)

theorem pairwise_sortAux {α : Type} (le : α → α → Bool)
    (htrans : ∀ a b c, le a b = true → le b c = true → le a c = true)
    (htotal : ∀ a b, le a b = true ∨ le b a = true)
    (l acc : List α) (hacc : acc.Pairwise (fun a b => le a b = true)) :
    (sortAux le acc l).Pairwise (fun a b => le a b = true) := by
  induction l generalizing acc with
  | nil => exact hacc
  | cons x xs ih =>
      exact ih _ (pairwise_insertLe le htrans htotal x acc hacc)

theorem pairwise_sortLe {α : Type} (le : α → α → Bool)
    (htrans : ∀ a b c, le a b = true → le b c = true → le a c = true)
    (htotal : ∀ a b, le a b = true ∨ le b a = true) (l : List α) :
    (sortLe le l).Pairwise (fun a b => le a b = true) :=
  pairwise_sortAux le htrans htotal l [] (List.Pairwise.nil)

/-- C8: whenever loading the configuration fails — the file is malformed,
the parsed value is not a mapping, the required `tree_focus` key is absent,
or its value is not a list — the `main` pipeline does not abort: the
`except` branch substitutes the hard-coded default focus list
`['src', 'app']` and the loop body continues with it. -/
theorem C8_config_failure_falls_back (c : ConfigLoad) (h : configLoadFails c = true) :
    loadFocusDirs c = ["src", "app"] := by
  cases c with
  | malformed => rfl
  | parsed v =>
      cases v with
      | scalar s => rfl
      | list xs => rfl
      | dict entries =>
          simp only [loadFocusDirs, configLoadFails] at h ⊢
          cases hl : entries.lookup "tree_focus" with
          | none => rfl
          | some w =>
              cases w with
              | scalar s => rfl
              | list xs => rw [hl] at h; exact absurd h (by simp)
              | dict es => rfl

theorem C8_config_failure_falls_back_witness :
    configLoadFails (.parsed (.dict [("project_title", .scalar "t")])) = true ∧
      loadFocusDirs (.parsed (.dict [("project_title", .scalar "t")])) = ["src", "app"] :=
  ⟨by decide, C8_config_failure_falls_back _ (by decide)⟩

/-- C1 (claim refuted, code bug): `generate_agent_files` receives an
`output_dir` argument, and `main` passes the script directory for it under
`--local-agents`, but the function writes every document to
`project_dir / agent_name` (line 80), ignoring `output_dir`.  Here, with an
output directory different from the project directory, the only written
document still goes to the project directory. -/
theorem C1_output_dir_ignored :
    (AgentCfg.mk "/home/u/proj" "/opt/agentic" "proj"
        (.dir "proj" [.dir "src" [.file "main.py"]]) []).outputDirStr ≠
      (AgentCfg.mk "/home/u/proj" "/opt/agentic" "proj"
        (.dir "proj" [.dir "src" [.file "main.py"]]) []).projectDirStr ∧
    generate_agent_files
        (AgentCfg.mk "/home/u/proj" "/opt/agentic" "proj"
          (.dir "proj" [.dir "src" [.file "main.py"]]) []) ["src"] =
      [AgentEvent.wrote "/home/u/proj" "agent_src.md" (agentContent "the src portion" "")] := by
  exact ⟨by decide, rfl⟩

theorem mem_enumFrom_of_mem {α : Type} :
    ∀ (l : List α) (a : α) (k : Nat), a ∈ l → ∃ i, (i, a) ∈ l.enumFrom k := by
  intro l
  induction l with
  | nil => intro a k ha; simp at ha
  | cons x xs ih =>
      intro a k ha
      rcases List.mem_cons.mp ha with rfl | ha
      · exact ⟨k, by simp [List.enumFrom_cons]⟩
      · obtain ⟨i, hi⟩ := ih a (k + 1) ha
        exact ⟨i, by simp [List.enumFrom_cons, hi]⟩

theorem snd_mem_of_mem_enumFrom {α : Type} :
    ∀ (l : List α) (p : Nat × α) (k : Nat), p ∈ l.enumFrom k → p.2 ∈ l := by
  intro l
  induction l with
  | nil => intro p k hp; simp [List.enumFrom] at hp
  | cons x xs ih =>
      intro p k hp
      rw [List.enumFrom_cons] at hp
      rcases List.mem_cons.mp hp with rfl | hp
      · exact List.mem_cons_self x xs
      · exact List.mem_cons_of_mem x (ih p (k + 1) hp)

/-- Every item produced by `_generate_tree` lies strictly below the
directory it was called on, and no component of its path below that
directory is a name of the exclude set (an excluded entry is skipped
before its line is appended and before any recursion into it). -/
theorem genTreeAux_shape (cfg : RenderCfg) :
    ∀ (fuel : Nat) (relDir : List String) (children : List FSEntry) (pre : String),
      ∀ it ∈ genTreeAux cfg fuel relDir children pre,
        ∃ suf, it.relPath = relDir ++ suf ∧ suf ≠ [] ∧
          ∀ c ∈ suf, cfg.excludeDirs.contains c = false := by
  intro fuel
  induction fuel with
  | zero =>
      intro relDir children pre it hit
      simp [genTreeAux] at hit
  | succ f ih =>
      intro relDir children pre it hit
      simp only [genTreeAux] at hit
      rw [List.mem_flatMap] at hit
      obtain ⟨ix, _hix, hit⟩ := hit
      obtain ⟨i, item⟩ := ix
      dsimp only at hit
      by_cases hs : shouldSkip cfg item (relDir ++ [item.name]) = true
      · rw [if_pos hs] at hit
        simp at hit
      · rw [if_neg hs] at hit
        have hexc : cfg.excludeDirs.contains item.name = false := by
          rw [Bool.not_eq_true] at hs
          simp only [shouldSkip, Bool.or_eq_false_iff] at hs
          exact hs.1.1.1
        cases item with
        | file n =>
            dsimp only at hit
            by_cases he : extOk cfg n = true
            · rw [if_pos he] at hit
              rcases List.mem_singleton.mp hit with rfl
              refine ⟨[n], rfl, by simp, ?_⟩
              intro c hc
              rcases List.mem_singleton.mp hc with rfl
              exact hexc
            · rw [if_neg he] at hit
              simp at hit
        | dir n cs =>
            dsimp only at hit
            rcases List.mem_cons.mp hit with rfl | hit
            · refine ⟨[n], rfl, by simp, ?_⟩
              intro c hc
              rcases List.mem_singleton.mp hc with rfl
              exact hexc
            · obtain ⟨suf, hpath, hne, hsuf⟩ := ih (relDir ++ [n]) cs _ it hit
              refine ⟨n :: suf, ?_, by simp, ?_⟩
              · rw [hpath]; simp
              · intro c hc
                rcases List.mem_cons.mp hc with rfl | hc
                · exact hexc
                · exact hsuf c hc

/-- C5: for every configuration and rendered directory, every line of the
flat rendering belongs to an item whose path below the rendered directory
contains no component from the exclude set: a directory named by the
exclude set is never listed, its contents are never listed, and the
renderer never recurses into it. -/
theorem C5_excluded_dirs_not_rendered (cfg : RenderCfg) (rootRel : List String)
    (children : List FSEntry) :
    ∀ it ∈ genItems cfg rootRel children,
      ∃ suf, it.relPath = rootRel ++ suf ∧ suf ≠ [] ∧
        ∀ c ∈ suf, cfg.excludeDirs.contains c = false :=
  fun it hit => genTreeAux_shape cfg (cfg.maxDepth + 1) rootRel children "" it hit

theorem C5_excluded_dirs_not_rendered_witness :
    ∃ suf, (RenderedItem.mk ["src", "main.py"] false "main.py" "├── main.py").relPath =
        ["src"] ++ suf ∧ suf ≠ [] ∧
      ∀ c ∈ suf, exampleCfg.excludeDirs.contains c = false :=
  C5_excluded_dirs_not_rendered exampleCfg ["src"] exampleSrc
    (RenderedItem.mk ["src", "main.py"] false "main.py" "├── main.py") (by decide)

/-- Every file line of the flat renderer passed the extension filter. -/
theorem genTreeAux_files_ext (cfg : RenderCfg) :
    ∀ (fuel : Nat) (relDir : List String) (children : List FSEntry) (pre : String),
      ∀ it ∈ genTreeAux cfg fuel relDir children pre,
        it.isDirE = false → extOk cfg it.name = true := by
  intro fuel
  induction fuel with
  | zero =>
      intro relDir children pre it hit
      simp [genTreeAux] at hit
  | succ f ih =>
      intro relDir children pre it hit
      simp only [genTreeAux] at hit
      rw [List.mem_flatMap] at hit
      obtain ⟨ix, _hix, hit⟩ := hit
      obtain ⟨i, item⟩ := ix
      dsimp only at hit
      by_cases hs : shouldSkip cfg item (relDir ++ [item.name]) = true
      · rw [if_pos hs] at hit
        simp at hit
      · rw [if_neg hs] at hit
        cases item with
        | file n =>
            dsimp only at hit
            by_cases he : extOk cfg n = true
            · rw [if_pos he] at hit
              rcases List.mem_singleton.mp hit with rfl
              intro _
              exact he
            · rw [if_neg he] at hit
              simp at hit
        | dir n cs =>
            dsimp only at hit
            rcases List.mem_cons.mp hit with rfl | hit
            · intro hfalse
              simp at hfalse
            · exact ih (relDir ++ [n]) cs _ it hit

/-- Completeness of the flat renderer: a file reachable along a path whose
every step survives the filters, with enough depth budget left, produces a
rendered item. -/
theorem renderable_appears (cfg : RenderCfg) :
    ∀ (p : List String) (fuel : Nat) (relDir : List String) (children : List FSEntry)
      (pre : String),
      p.length ≤ fuel →
      renderableAt cfg children relDir p = true →
      ∃ it ∈ genTreeAux cfg fuel relDir children pre,
        it.relPath = relDir ++ p ∧ it.isDirE = false ∧ it.name = p.getLastD "" := by
  intro p
  induction p with
  | nil =>
      intro fuel relDir children pre hlen hr
      simp [renderableAt] at hr
  | cons d rest ih =>
      intro fuel relDir children pre hlen hr
      cases fuel with
      | zero => simp at hlen
      | succ f =>
          cases rest with
          | nil =>
              simp only [renderableAt, List.any_eq_true] at hr
              obtain ⟨c, hc, hcp⟩ := hr
              cases c with
              | dir n cs => simp at hcp
              | file n =>
                  simp only [Bool.and_eq_true, beq_iff_eq] at hcp
                  obtain ⟨⟨hn, hskip⟩, hext⟩ := hcp
                  have hcm : FSEntry.file n ∈ sortItems children :=
                    (mem_sortLe itemLe children (FSEntry.file n)).mpr hc
                  obtain ⟨i, hi⟩ := mem_enumFrom_of_mem (sortItems children) (FSEntry.file n) 0 hcm
                  refine ⟨⟨relDir ++ [n], false, n,
                    (pre ++ if decide (i = (sortItems children).length - 1) = true
                      then "└── " else "├── ") ++ n⟩, ?_, ?_, rfl, ?_⟩
                  · simp only [genTreeAux]
                    rw [List.mem_flatMap]
                    refine ⟨(i, FSEntry.file n), ?_, ?_⟩
                    · exact hi
                    · dsimp only
                      rw [Bool.not_eq_true'] at hskip
                      rw [if_neg (by simp [hskip, FSEntry.name])]
                      rw [if_pos hext]
                      simp [FSEntry.name]
                  · simp [hn]
                  · simp [hn]
          | cons d2 rest2 =>
              simp only [renderableAt, List.any_eq_true] at hr
              obtain ⟨c, hc, hcp⟩ := hr
              cases c with
              | file n => simp at hcp
              | dir n cs =>
                  simp only [Bool.and_eq_true, beq_iff_eq] at hcp
                  obtain ⟨⟨hn, hskip⟩, hrest⟩ := hcp
                  have hlen2 : (d2 :: rest2).length ≤ f := by
                    simp only [List.length_cons] at hlen ⊢
                    omega
                  have hcm : FSEntry.dir n cs ∈ sortItems children :=
                    (mem_sortLe itemLe children (FSEntry.dir n cs)).mpr hc
                  obtain ⟨i, hi⟩ := mem_enumFrom_of_mem (sortItems children) (FSEntry.dir n cs) 0 hcm
                  obtain ⟨it, hit, hpath, hdir, hname⟩ :=
                    ih f (relDir ++ [n]) cs
                      (pre ++ if decide (i = (sortItems children).length - 1) = true
                        then "    " else "│   ") hlen2 hrest
                  refine ⟨it, ?_, ?_, hdir, ?_⟩
                  · simp only [genTreeAux]
                    rw [List.mem_flatMap]
                    refine ⟨(i, FSEntry.dir n cs), hi, ?_⟩
                    dsimp only
                    rw [Bool.not_eq_true'] at hskip
                    rw [if_neg (by simp [hskip, FSEntry.name])]
                    exact List.mem_cons_of_mem _ hit
                  · rw [hpath, hn]
                    simp
                  · rw [hname]
                    simp [List.getLastD_cons]

/-- C6 (amended): with the extension filter `[.py]`, every file line of the
rendered output ends in `.py` — so a file named `a.txt` never appears — and
a file `a.py` at nesting depth at most `max_depth` appears whenever neither
it nor any directory on its path from the rendered root is filtered out
(by the exclude set, the ignore matcher, the skip set, or a configured
focus path); the original claim fails without that proviso. -/
theorem C6_extension_filter (cfg : RenderCfg) (rootRel : List String)
    (children : List FSEntry) (hft : cfg.fileTypes = some [".py"]) :
    (∀ it ∈ genItems cfg rootRel children, it.isDirE = false →
        pyEndsWith it.name ".py" = true ∧ it.name ≠ "a.txt") ∧
    (∀ p : List String, p.getLastD "" = "a.py" → p.length ≤ cfg.maxDepth →
        renderableAt cfg children rootRel p = true →
        ∃ it ∈ genItems cfg rootRel children,
          it.relPath = rootRel ++ p ∧ it.isDirE = false ∧ it.name = "a.py") := by
  constructor
  · intro it hit hf
    have hext := genTreeAux_files_ext cfg (cfg.maxDepth + 1) rootRel children "" it hit hf
    simp only [extOk, extensionsToCheck, hft] at hext
    simp at hext
    refine ⟨hext, ?_⟩
    intro hname
    rw [hname] at hext
    exact absurd hext (by decide)
  · intro p hlast hdep hr
    obtain ⟨it, hit, h1, h2, h3⟩ :=
      renderable_appears cfg p (cfg.maxDepth + 1) rootRel children ""
        (Nat.le_succ_of_le hdep) hr
    exact ⟨it, hit, h1, h2, by rw [h3, hlast]⟩

theorem C6_extension_filter_witness :
    ∃ it ∈ genItems (RenderCfg.mk [] noMatch [] "/proj" (some [".py"]) 3 [] []) ["src"]
        [.file "a.py", .file "a.txt"],
      it.relPath = ["src"] ++ ["a.py"] ∧ it.isDirE = false ∧ it.name = "a.py" :=
  (C6_extension_filter (RenderCfg.mk [] noMatch [] "/proj" (some [".py"]) 3 [] [])
      ["src"] [.file "a.py", .file "a.txt"] rfl).2
    ["a.py"] (by decide) (by decide) (by decide)

/-- C6 (counterexample to the claim as stated): a file `a.py` at nesting
depth 2 ≤ 3 below the rendered root, inside an excluded directory, never
appears in the rendered output. -/
theorem C6_counterexample :
    resolvePath (FSEntry.dir "r" [.dir "node_modules" [.file "a.py"]])
        ["node_modules", "a.py"] = some (.file "a.py") ∧
    (["node_modules", "a.py"] : List String).length ≤ 3 ∧
    ∀ it ∈ genItems (RenderCfg.mk ["node_modules"] noMatch [] "/proj" (some [".py"]) 3 [] [])
        [] [.dir "node_modules" [.file "a.py"]],
      it.name ≠ "a.py" := by
  refine ⟨rfl, by decide, ?_⟩
  decide

theorem charsLe_trans :
    ∀ a b c : List Char, charsLe a b = true → charsLe b c = true → charsLe a c = true := by
  intro a
  induction a with
  | nil => intro b c _ _; rfl
  | cons x xs ih =>
      intro b c hab hbc
      cases b with
      | nil => simp [charsLe] at hab
      | cons y ys =>
          cases c with
          | nil => simp [charsLe] at hbc
          | cons z zs =>
              simp only [charsLe] at hab hbc ⊢
              by_cases hxy : x.toNat = y.toNat
              · rw [if_pos hxy] at hab
                by_cases hyz : y.toNat = z.toNat
                · rw [if_pos hyz] at hbc
                  rw [if_pos (hxy.trans hyz)]
                  exact ih ys zs hab hbc
                · rw [if_neg hyz] at hbc
                  have hlt : y.toNat < z.toNat := of_decide_eq_true hbc
                  rw [if_neg (by omega), decide_eq_true_iff]
                  omega
              · rw [if_neg hxy] at hab
                have hlt : x.toNat < y.toNat := of_decide_eq_true hab
                by_cases hyz : y.toNat = z.toNat
                · rw [if_neg (by omega), decide_eq_true_iff]
                  omega
                · rw [if_neg hyz] at hbc
                  have hlt2 : y.toNat < z.toNat := of_decide_eq_true hbc
                  rw [if_neg (by omega), decide_eq_true_iff]
                  omega

theorem charsLe_total :
    ∀ a b : List Char, charsLe a b = true ∨ charsLe b a = true := by
  intro a
  induction a with
  | nil => intro b; left; rfl
  | cons x xs ih =>
      intro b
      cases b with
      | nil => right; rfl
      | cons y ys =>
          simp only [charsLe]
          by_cases hxy : x.toNat = y.toNat
          · rw [if_pos hxy, if_pos hxy.symm]
            exact ih ys
          · rw [if_neg hxy, if_neg (fun h => hxy h.symm), decide_eq_true_iff,
              decide_eq_true_iff]
            omega

theorem itemLe_trans :
    ∀ a b c : FSEntry, itemLe a b = true → itemLe b c = true → itemLe a c = true := by
  intro a b c hab hbc
  simp only [itemLe] at hab hbc ⊢
  by_cases h1 : a.isDir = b.isDir
  · rw [if_pos h1] at hab
    by_cases h2 : b.isDir = c.isDir
    · rw [if_pos h2] at hbc
      rw [if_pos (h1.trans h2)]
      exact charsLe_trans _ _ _ hab hbc
    · rw [if_neg h2] at hbc
      rw [if_neg (fun h => h2 (h1.symm.trans h))]
      exact hbc
  · rw [if_neg h1] at hab
    have ha : a.isDir = false := by
      cases hA : a.isDir
      · rfl
      · exact absurd (hA.trans hab.symm) h1
    by_cases h2 : b.isDir = c.isDir
    · have hc : c.isDir = true := h2 ▸ hab
      rw [if_neg (by rw [ha, hc]; simp)]
      exact hc
    · rw [if_neg h2] at hbc
      rw [if_neg (by rw [ha, hbc]; simp)]
      exact hbc

theorem itemLe_total :
    ∀ a b : FSEntry, itemLe a b = true ∨ itemLe b a = true := by
  intro a b
  simp only [itemLe]
  by_cases h : a.isDir = b.isDir
  · rw [if_pos h, if_pos h.symm]
    exact charsLe_total _ _
  · rw [if_neg h, if_neg (fun h' => h h'.symm)]
    cases ha : a.isDir <;> cases hb : b.isDir <;> simp_all

theorem filter_flatMap_level {α β : Type} (P : β → Bool) (F : α → List β)
    (own : α → Option β) (hF : ∀ a, (F a).filter P = (own a).toList) :
    ∀ l : List α, (l.flatMap F).filter P = l.filterMap own := by
  intro l
  induction l with
  | nil => rfl
  | cons x xs ih =>
      rw [List.flatMap_cons, List.filter_append, ih, hF, List.filterMap_cons]
      cases h : own x
      · simp
      · simp

theorem pairwise_filterMap_enumFrom {α β : Type} (R : α → α → Prop) (S : β → β → Prop)
    (own : Nat × α → Option β)
    (hcompat : ∀ i x j y bx bz, own (i, x) = some bx → own (j, y) = some bz →
      R x y → S bx bz) :
    ∀ (l : List α) (k : Nat), l.Pairwise R →
      ((l.enumFrom k).filterMap own).Pairwise S := by
  intro l
  induction l with
  | nil =>
      intro k _
      simp [List.enumFrom]
  | cons x xs ih =>
      intro k hp
      rw [List.pairwise_cons] at hp
      rw [List.enumFrom_cons, List.filterMap_cons]
      cases h : own (k, x) with
      | none => exact ih (k + 1) hp.2
      | some bx =>
          rw [List.pairwise_cons]
          constructor
          · intro b hb
            rw [List.mem_filterMap] at hb
            obtain ⟨⟨j, y⟩, hjy, hby⟩ := hb
            have hy : y ∈ xs := snd_mem_of_mem_enumFrom xs (j, y) (k + 1) hjy
            exact hcompat k x j y bx b h hby (hp.1 y hy)
          · exact ih (k + 1) hp.2

/-- C2 (amended): among the sibling entries rendered for any directory the
files come first, then the directories, each group in ascending name
order — the key is `(not is_file(), name)`, so the boolean puts files
(`False`) before directories (`True`); the claim's "directories before
files" is the opposite of what the renderer does. -/
theorem C2_siblings_files_first (cfg : RenderCfg) (fuel : Nat) (relDir : List String)
    (children : List FSEntry) (pre : String) :
    ((genTreeAux cfg fuel relDir children pre).filter
        (fun it => it.relPath.length == relDir.length + 1)).Pairwise
      (fun a b => itemLeR a b = true) := by
  cases fuel with
  | zero => simp [genTreeAux]
  | succ f =>
      have hrw : genTreeAux cfg (f + 1) relDir children pre =
          ((sortItems children).enum).flatMap (fun ix =>
            if shouldSkip cfg ix.2 (relDir ++ [ix.2.name]) then []
            else
              match ix.2 with
              | .dir n cs =>
                  (⟨relDir ++ [ix.2.name], true, n,
                    pre ++ (if decide (ix.1 = (sortItems children).length - 1)
                      then "└── " else "├── ") ++ n ++ "/"⟩ : RenderedItem) ::
                    genTreeAux cfg f (relDir ++ [ix.2.name]) cs
                      (pre ++ (if decide (ix.1 = (sortItems children).length - 1)
                        then "    " else "│   "))
              | .file n =>
                  if extOk cfg n then
                    [⟨relDir ++ [ix.2.name], false, n,
                      pre ++ (if decide (ix.1 = (sortItems children).length - 1)
                        then "└── " else "├── ") ++ n⟩]
                  else []) := rfl
      rw [hrw]
      rw [filter_flatMap_level (fun it => it.relPath.length == relDir.length + 1) _
        (fun ix =>
          if shouldSkip cfg ix.2 (relDir ++ [ix.2.name]) then none
          else
            match ix.2 with
            | FSEntry.dir n _ =>
                some (⟨relDir ++ [ix.2.name], true, n,
                  pre ++ (if decide (ix.1 = (sortItems children).length - 1)
                    then "└── " else "├── ") ++ n ++ "/"⟩ : RenderedItem)
            | FSEntry.file n =>
                if extOk cfg n then
                  some (⟨relDir ++ [ix.2.name], false, n,
                    pre ++ (if decide (ix.1 = (sortItems children).length - 1)
                      then "└── " else "├── ") ++ n⟩ : RenderedItem)
                else none)
        ?hF ((sortItems children).enum)]
      case hF =>
        intro ix
        dsimp only
        by_cases hs : shouldSkip cfg ix.2 (relDir ++ [ix.2.name]) = true
        · rw [if_pos hs, if_pos hs]
          rfl
        · rw [if_neg hs, if_neg hs]
          cases hx : ix.2 with
          | file n =>
              dsimp only
              by_cases he : extOk cfg n = true
              · rw [if_pos he, if_pos he]
                simp [FSEntry.name, hx]
              · rw [if_neg he, if_neg he]
                rfl
          | dir n cs =>
              dsimp only
              rw [List.filter_cons]
              have hhead : ((relDir ++ [(FSEntry.dir n cs).name]).length ==
                  relDir.length + 1) = true := by
                simp [FSEntry.name]
              rw [if_pos hhead]
              have htail : (genTreeAux cfg f (relDir ++ [(FSEntry.dir n cs).name]) cs
                  (pre ++ (if decide (ix.1 = (sortItems children).length - 1)
                    then "    " else "│   "))).filter
                  (fun it => it.relPath.length == relDir.length + 1) = [] := by
                rw [List.filter_eq_nil_iff]
                intro it hit
                obtain ⟨suf, hpath, hne, _⟩ :=
                  genTreeAux_shape cfg f (relDir ++ [(FSEntry.dir n cs).name]) cs _ it hit
                simp only [hpath, beq_iff_eq]
                rw [List.length_append, List.length_append]
                cases suf with
                | nil => exact absurd rfl hne
                | cons s ss => simp [FSEntry.name]
              rw [htail]
              rfl
      · rw [show (sortItems children).enum = (sortItems children).enumFrom 0 from rfl]
        apply pairwise_filterMap_enumFrom (fun x y => itemLe x y = true)
        · intro i x j y bx bz hbx hbz hR
          by_cases hsx : shouldSkip cfg x (relDir ++ [x.name]) = true
          · rw [if_pos hsx] at hbx
            exact absurd hbx (by simp)
          · rw [if_neg hsx] at hbx
            by_cases hsy : shouldSkip cfg y (relDir ++ [y.name]) = true
            · rw [if_pos hsy] at hbz
              exact absurd hbz (by simp)
            · rw [if_neg hsy] at hbz
              have hx2 : bx.isDirE = x.isDir ∧ bx.name = x.name := by
                cases x with
                | file n =>
                    dsimp only at hbx
                    by_cases he : extOk cfg n = true
                    · rw [if_pos he] at hbx
                      cases hbx
                      exact ⟨rfl, rfl⟩
                    · rw [if_neg he] at hbx
                      exact absurd hbx (by simp)
                | dir n cs =>
                    dsimp only at hbx
                    cases hbx
                    exact ⟨rfl, rfl⟩
              have hy2 : bz.isDirE = y.isDir ∧ bz.name = y.name := by
                cases y with
                | file n =>
                    dsimp only at hbz
                    by_cases he : extOk cfg n = true
                    · rw [if_pos he] at hbz
                      cases hbz
                      exact ⟨rfl, rfl⟩
                    · rw [if_neg he] at hbz
                      exact absurd hbz (by simp)
                | dir n cs =>
                    dsimp only at hbz
                    cases hbz
                    exact ⟨rfl, rfl⟩
              rw [itemLeR, hx2.1, hx2.2, hy2.1, hy2.2]
              rw [itemLe] at hR
              exact hR
        · exact pairwise_sortLe itemLe itemLe_trans itemLe_total children

/-- C2 (counterexample to the claim as stated): with siblings consisting of
a directory `a` and a file `b.py`, the rendered order lists the file first
(`[false, true]` as the is-directory flags), so directories do not come
before files, and the claimed directories-first pairwise order fails. -/
theorem C2_counterexample :
    (genItems (RenderCfg.mk [] noMatch [".py"] "/proj" none 3 [] []) ["r"]
        [.dir "a" [], .file "b.py"]).map RenderedItem.isDirE = [false, true] ∧
    ¬ ((genItems (RenderCfg.mk [] noMatch [".py"] "/proj" none 3 [] []) ["r"]
        [.dir "a" [], .file "b.py"]).Pairwise (fun a b => dirsFirstLe a b = true)) := by
  constructor
  · rfl
  · decide

theorem rtreeLabelsList_append :
    ∀ a b : List RTree, rtreeLabelsList (a ++ b) = rtreeLabelsList a ++ rtreeLabelsList b := by
  intro a
  induction a with
  | nil => intro b; rfl
  | cons t ts ih =>
      intro b
      show rtreeLabels t ++ rtreeLabelsList (ts ++ b) = _
      rw [ih, ← List.append_assoc]
      rfl

theorem labelsList_flatMap {α : Type} (G : α → List RTree) :
    ∀ l : List α,
      rtreeLabelsList (l.flatMap G) = l.flatMap (fun a => rtreeLabelsList (G a)) := by
  intro l
  induction l with
  | nil => rfl
  | cons x xs ih =>
      rw [List.flatMap_cons, List.flatMap_cons, rtreeLabelsList_append, ih]

theorem map_flatMap_enumFrom_eq {α β γ : Type} (F : Nat × α → List β) (g : β → γ)
    (G : α → List γ) :
    ∀ (l : List α) (k : Nat),
      (∀ i x, x ∈ l → (F (i, x)).map g = G x) →
      ((l.enumFrom k).flatMap F).map g = l.flatMap G := by
  intro l
  induction l with
  | nil => intro k _; rfl
  | cons x xs ih =>
      intro k h
      rw [List.enumFrom_cons, List.flatMap_cons, List.flatMap_cons, List.map_append]
      rw [h k x (List.mem_cons_self x xs)]
      rw [ih (k + 1) (fun i y hy => h i y (List.mem_cons_of_mem x hy))]

/-- The label sequence of the rich forest built for a directory equals the
label rendering of the flat items, entry for entry and in the same order:
both walks sort, filter and recurse identically. -/
theorem buildRich_labels (cfg : RenderCfg) :
    ∀ (fuel : Nat) (relDir : List String) (children : List FSEntry) (pre : String),
      (genTreeAux cfg fuel relDir children pre).map entryLabel =
        rtreeLabelsList (buildRich cfg fuel relDir children) := by
  intro fuel
  induction fuel with
  | zero => intro relDir children pre; rfl
  | succ f ih =>
      intro relDir children pre
      rw [show buildRich cfg (f + 1) relDir children =
          (sortItems children).flatMap (fun item =>
            if shouldSkip cfg item (relDir ++ [item.name]) then []
            else
              match item with
              | FSEntry.dir n cs =>
                  [RTree.node (dirLabel n) (buildRich cfg f (relDir ++ [item.name]) cs)]
              | FSEntry.file n =>
                  if extOk cfg n then [RTree.node (fileLabel n) []] else []) from rfl]
      rw [labelsList_flatMap]
      rw [show genTreeAux cfg (f + 1) relDir children pre =
          ((sortItems children).enumFrom 0).flatMap (fun ix =>
            if shouldSkip cfg ix.2 (relDir ++ [ix.2.name]) then []
            else
              match ix.2 with
              | FSEntry.dir n cs =>
                  (⟨relDir ++ [ix.2.name], true, n,
                    pre ++ (if decide (ix.1 = (sortItems children).length - 1)
                      then "└── " else "├── ") ++ n ++ "/"⟩ : RenderedItem) ::
                    genTreeAux cfg f (relDir ++ [ix.2.name]) cs
                      (pre ++ (if decide (ix.1 = (sortItems children).length - 1)
                        then "    " else "│   "))
              | FSEntry.file n =>
                  if extOk cfg n then
                    [⟨relDir ++ [ix.2.name], false, n,
                      pre ++ (if decide (ix.1 = (sortItems children).length - 1)
                        then "└── " else "├── ") ++ n⟩]
                  else []) from rfl]
      apply map_flatMap_enumFrom_eq
      intro i x _hx
      dsimp only
      by_cases hs : shouldSkip cfg x (relDir ++ [x.name]) = true
      · rw [if_pos hs, if_pos hs]
        rfl
      · rw [if_neg hs, if_neg hs]
        cases x with
        | file n =>
            dsimp only
            by_cases he : extOk cfg n = true
            · rw [if_pos he, if_pos he]
              rfl
            · rw [if_neg he, if_neg he]
              rfl
        | dir n cs =>
            dsimp only
            rw [List.map_cons]
            show entryLabel _ :: (genTreeAux cfg f (relDir ++ [FSEntry.name (FSEntry.dir n cs)]) cs _).map entryLabel =
              rtreeLabels (RTree.node (dirLabel n)
                (buildRich cfg f (relDir ++ [FSEntry.name (FSEntry.dir n cs)]) cs)) ++ []
            rw [List.append_nil]
            show entryLabel _ :: _ =
              dirLabel n :: rtreeLabelsList (buildRich cfg f (relDir ++ [FSEntry.name (FSEntry.dir n cs)]) cs)
            rw [← ih (relDir ++ [FSEntry.name (FSEntry.dir n cs)]) cs
              (pre ++ (if decide (i = (sortItems children).length - 1)
                then "    " else "│   "))]
            rfl

/-- C7: the flat line-based rendering and the hierarchical Rich rendering
contain exactly the same entries in the same order: the preorder label
sequence of the Rich tree is the root label followed by the label of each
flat rendered item, so an entry is omitted from one form if and only if it
is omitted from the other. -/
theorem C7_flat_and_rich_agree (cfg : RenderCfg) (dirName : String)
    (rootRel : List String) (children : List FSEntry) :
    rtreeLabels (generate_rich_tree cfg dirName rootRel children) =
      rootLabel dirName :: (genItems cfg rootRel children).map entryLabel := by
  show rootLabel dirName :: rtreeLabelsList (buildRich cfg (cfg.maxDepth + 1) rootRel children) = _
  rw [genItems, buildRich_labels]

theorem resolvePath_dir_cons (rn : String) (rcs : List FSEntry) (c : String)
    (cs : List String) :
    resolvePath (FSEntry.dir rn rcs) (c :: cs) =
      match rcs.find? (fun e => e.name == c) with
      | some e => resolvePath e cs
      | none => none := rfl

theorem find_name_unique :
    ∀ (l : List FSEntry) (c : FSEntry), c ∈ l → nodupB (l.map FSEntry.name) = true →
      l.find? (fun e => e.name == c.name) = some c := by
  intro l
  induction l with
  | nil => intro c hc _; simp at hc
  | cons e es ih =>
      intro c hc hnd
      rw [List.map_cons] at hnd
      simp only [nodupB, Bool.and_eq_true] at hnd
      rcases List.mem_cons.mp hc with rfl | hc
      · simp [List.find?]
      · have hne : (e.name == c.name) = false := by
          by_contra hcon
          rw [Bool.not_eq_false, beq_iff_eq] at hcon
          have hmem : c.name ∈ es.map FSEntry.name := List.mem_map_of_mem _ hc
          rw [← hcon] at hmem
          have hcontains : (es.map FSEntry.name).contains e.name = true :=
            List.elem_iff.mpr hmem
          rw [hcontains] at hnd
          simp at hnd
        simp only [List.find?, hne]
        exact ih c hc hnd.2

theorem charsContain_append_right :
    ∀ (h n : List Char), charsContain n (h ++ n) = true := by
  intro h
  induction h with
  | nil =>
      intro n
      cases n with
      | nil => rfl
      | cons c cs =>
          show (List.isPrefixOf (c :: cs) (c :: cs) || _) = true
          rw [List.isPrefixOf_iff_prefix.mpr (List.prefix_refl _)]
          simp
  | cons c cs ih =>
      intro n
      show (List.isPrefixOf n (c :: (cs ++ n)) || charsContain n (cs ++ n)) = true
      rw [ih n]
      simp

theorem pyContains_of_data_suffix (s sub : String) (h : List Char)
    (hdata : s.data = h ++ sub.data) : pyContains s sub = true := by
  rw [pyContains, hdata]
  exact charsContain_append_right h sub.data

/-- C3 (amended): for a focus identifier `x` that normalises to itself and
matches directories at three different nesting depths, the resolver returns
the shallowest match provided the shallowest of the three lies at depth at
most 2 (an exact or top-level match, or a match one level below the root);
when every match is deeper, the bounded walk returns its first hit in
depth-first traversal order, which need not be the shallowest. -/
theorem C3_shallowest_match (rootStr x : String) (tree : FSEntry)
    (hnorm : normalizeFocus x = [x])
    (hu : uniqNames tree = true)
    (p1 p2 p3 : List String)
    (h1 : dirMatch tree x p1) (h2 : dirMatch tree x p2) (h3 : dirMatch tree x p3)
    (hd12 : p1.length ≠ p2.length) (hd13 : p1.length ≠ p3.length)
    (hd23 : p2.length ≠ p3.length)
    (hshallow : p1.length ≤ 2) :
    ∃ q, find_focus_dirs rootStr tree [x] = [q] ∧ dirMatch tree x q ∧
      ∀ p, dirMatch tree x p → q.length ≤ p.length := by
  have hraw : focusResolveRaw rootStr tree [x] = resolveOne rootStr tree [] [x] := by
    unfold focusResolveRaw
    rw [List.map_cons, List.map_nil, hnorm]
    rfl
  have hout : find_focus_dirs rootStr tree [x] =
      if (resolveOne rootStr tree [] [x]).isEmpty then find_code_directories tree
      else resolveOne rootStr tree [] [x] := by
    rw [show find_focus_dirs rootStr tree [x] =
      (if (focusResolveRaw rootStr tree [x]).isEmpty then find_code_directories tree
       else focusResolveRaw rootStr tree [x]) from rfl, hraw]
  by_cases hbase : isDirAt tree [x] = true
  · -- the identifier resolves at the top level: strategy 1 fires
    have hres : resolveOne rootStr tree [] [x] = [[x]] := by
      simp only [resolveOne]
      rw [if_pos hbase]
      rfl
    refine ⟨[x], ?_, ⟨by simp, rfl, hbase⟩, ?_⟩
    · rw [hout, hres]
      rfl
    · intro p hp
      cases p with
      | nil => exact absurd rfl hp.1
      | cons a as => simp
  · -- no top-level match: the shallowest of the three lies at depth 2
    have hbase' : isDirAt tree [x] = false := by
      rw [Bool.not_eq_true] at hbase
      exact hbase
    have hlen1 : ∀ p, dirMatch tree x p → p.length ≠ 1 := by
      intro p hp hone
      cases p with
      | nil => simp at hone
      | cons a as =>
          cases as with
          | nil =>
              have ha : a = x := hp.2.1
              rw [ha] at hp
              have := hp.2.2
              rw [hbase'] at this
              exact absurd this (by simp)
          | cons b bs => simp at hone
    have hp1len : p1.length = 2 := by
      have hne0 : p1.length ≠ 0 := by
        cases hp1 : p1 with
        | nil => exact absurd hp1 h1.1
        | cons a as => simp
      have := hlen1 p1 h1
      omega
    obtain ⟨a, b, hab⟩ : ∃ a b, p1 = [a, b] := by
      cases p1 with
      | nil => simp at hp1len
      | cons a as =>
          cases as with
          | nil => simp at hp1len
          | cons b bs =>
              cases bs with
              | nil => exact ⟨a, b, rfl⟩
              | cons c cs => simp at hp1len
    have hab2 : p1 = [a, x] := by
      have hl := h1.2.1
      rw [hab] at hl
      simp at hl
      rw [hab, hl]
    subst hab2
    cases tree with
    | file n =>
        have := h1.2.2
        simp [isDirAt, resolvePath] at this
    | dir rn rcs =>
        have hm : isDirAt (FSEntry.dir rn rcs) [a, x] = true := h1.2.2
        rw [isDirAt, resolvePath_dir_cons] at hm
        cases hfind : rcs.find? (fun e => e.name == a) with
        | none => rw [hfind] at hm; simp at hm
        | some e =>
            rw [hfind] at hm
            have hm2 : (match resolvePath e [x] with
                | some z => z.isDir
                | none => false) = true := hm
            have hedir : ∃ z, resolvePath e [x] = some z ∧ z.isDir = true := by
              cases hrp : resolvePath e [x] with
              | none => rw [hrp] at hm2; simp at hm2
              | some z =>
                  rw [hrp] at hm2
                  exact ⟨z, rfl, hm2⟩
            obtain ⟨z, hz, hzdir⟩ := hedir
            have hemem : e ∈ rcs := List.mem_of_find?_eq_some hfind
            have heisdir : e.isDir = true := by
              cases e with
              | file n => simp [resolvePath] at hz
              | dir n cs => rfl
            have hpred : (fun it => it.isDir && isDirAt it [x]) e = true := by
              simp only [heisdir, Bool.true_and]
              rw [isDirAt, hz]
              exact hzdir
            have hfsome : ((FSEntry.dir rn rcs).childrenD.find?
                (fun it => it.isDir && isDirAt it [x])).isSome = true := by
              rw [List.find?_isSome]
              exact ⟨e, hemem, hpred⟩
            cases hf0 : (FSEntry.dir rn rcs).childrenD.find?
                (fun it => it.isDir && isDirAt it [x]) with
            | none => rw [hf0] at hfsome; simp at hfsome
            | some it0 =>
                have hit0mem : it0 ∈ (FSEntry.dir rn rcs).childrenD :=
                  List.mem_of_find?_eq_some hf0
                have hit0pred := List.find?_some hf0
                rw [Bool.and_eq_true] at hit0pred
                have hguard : pyContains (absPathStr rootStr [it0.name, x]) x = true := by
                  apply pyContains_of_data_suffix _ _
                    (rootStr.data ++ "/".data ++ it0.name.data ++ "/".data)
                  show (rootStr ++ "/" ++ joinPath [it0.name, x]).data = _
                  rw [show joinPath [it0.name, x] = it0.name ++ "/" ++ x from rfl]
                  rw [String.data_append, String.data_append, String.data_append,
                    String.data_append]
                  simp [List.append_assoc]
                have hres : resolveOne rootStr (FSEntry.dir rn rcs) [] [x] =
                    [[it0.name, x]] := by
                  simp only [resolveOne]
                  rw [show ([x].getLastD "") = x from rfl]
                  rw [if_neg (by rw [hbase']; simp), if_neg (by rw [hbase']; simp)]
                  rw [hf0]
                  rw [if_pos (by simp [hguard])]
                  rfl
                have hnodup : nodupB (rcs.map FSEntry.name) = true := by
                  have hu' := hu
                  simp only [uniqNames, Bool.and_eq_true] at hu'
                  exact hu'.1
                have hqdir : isDirAt (FSEntry.dir rn rcs) [it0.name, x] = true := by
                  rw [isDirAt, resolvePath_dir_cons]
                  rw [find_name_unique rcs it0 hit0mem hnodup]
                  show (match resolvePath it0 [x] with
                    | some z => z.isDir
                    | none => false) = true
                  have hp2 := hit0pred.2
                  rw [isDirAt] at hp2
                  cases hrp2 : resolvePath it0 [x] with
                  | none => rw [hrp2] at hp2; simp at hp2
                  | some z2 =>
                      rw [hrp2] at hp2
                      exact hp2
                refine ⟨[it0.name, x], ?_, ⟨by simp, by simp, hqdir⟩, ?_⟩
                · rw [hout, hres]
                  rfl
                · intro p hp
                  have hne1 := hlen1 p hp
                  have hpos : 0 < p.length := List.length_pos.mpr hp.1
                  have hq2 : ([it0.name, x] : List String).length = 2 := rfl
                  omega

theorem C3_shallowest_match_witness :
    ∃ q, find_focus_dirs "/proj" c3WitnessTree ["x"] = [q] ∧
      dirMatch c3WitnessTree "x" q ∧
      ∀ p, dirMatch c3WitnessTree "x" p → q.length ≤ p.length :=
  C3_shallowest_match "/proj" "x" c3WitnessTree (by decide) (by decide)
    ["x"] ["a", "x"] ["a", "x", "x"]
    (by decide) (by decide) (by decide)
    (by decide) (by decide) (by decide) (by decide)

/-- C3 (counterexample to the claim as stated): the identifier `x` matches
directories at three different nesting depths (3, 4 and 5), yet the
resolver returns the depth-4 match `a/b/c/x` although the strictly
shallower match `m/n/x` exists. -/
theorem C3_counterexample :
    dirMatch c3CounterTree "x" ["m", "n", "x"] ∧
    dirMatch c3CounterTree "x" ["a", "b", "c", "x"] ∧
    dirMatch c3CounterTree "x" ["p", "q", "r", "s", "x"] ∧
    (["m", "n", "x"] : List String).length ≠ (["a", "b", "c", "x"] : List String).length ∧
    (["m", "n", "x"] : List String).length ≠
      (["p", "q", "r", "s", "x"] : List String).length ∧
    (["a", "b", "c", "x"] : List String).length ≠
      (["p", "q", "r", "s", "x"] : List String).length ∧
    find_focus_dirs "/proj" c3CounterTree ["x"] = [["a", "b", "c", "x"]] ∧
    (["m", "n", "x"] : List String).length < (["a", "b", "c", "x"] : List String).length := by
  refine ⟨by decide, by decide, by decide, by decide, by decide, by decide, by decide, by decide⟩

mutual
theorem codeWalk_resolvable :
    ∀ (e : FSEntry) (pre rel : List String) (cnt : Nat),
      uniqNames e = true → (rel, cnt) ∈ codeWalk e pre →
      ∃ suf, rel = pre ++ suf ∧ (resolvePath e suf).isSome = true
  | .file n, pre, rel, cnt, _, hmem => by
      simp [codeWalk] at hmem
  | .dir n cs, pre, rel, cnt, hu, hmem => by
      rw [codeWalk] at hmem
      rcases List.mem_cons.mp hmem with heq | hmem
      · have h1 : rel = pre := congrArg Prod.fst heq
        exact ⟨[], by rw [h1]; simp, by simp [resolvePath]⟩
      · simp only [uniqNames, Bool.and_eq_true] at hu
        obtain ⟨c, hc, _hkeep, suf, hrel, hres⟩ :=
          codeWalkList_resolvable cs pre rel cnt hu.2 hmem
        refine ⟨c.name :: suf, by rw [hrel]; simp, ?_⟩
        rw [resolvePath_dir_cons, find_name_unique cs c hc hu.1]
        exact hres

theorem codeWalkList_resolvable :
    ∀ (cs : List FSEntry) (pre rel : List String) (cnt : Nat),
      uniqNamesList cs = true → (rel, cnt) ∈ codeWalkList cs pre →
      ∃ c ∈ cs, keepWalkDir c = true ∧ ∃ suf, rel = (pre ++ [c.name]) ++ suf ∧
        (resolvePath c suf).isSome = true
  | [], pre, rel, cnt, _, hmem => by
      simp [codeWalkList] at hmem
  | c :: cs, pre, rel, cnt, hu, hmem => by
      rw [codeWalkList, List.mem_append] at hmem
      simp only [uniqNamesList, Bool.and_eq_true] at hu
      rcases hmem with hmem | hmem
      · by_cases hk : keepWalkDir c = true
        · rw [if_pos hk] at hmem
          obtain ⟨suf, hrel, hres⟩ :=
            codeWalk_resolvable c (pre ++ [c.name]) rel cnt hu.1 hmem
          exact ⟨c, List.mem_cons_self c cs, hk, suf, hrel, hres⟩
        · rw [if_neg hk] at hmem
          simp at hmem
      · obtain ⟨c', hc', hrest⟩ := codeWalkList_resolvable cs pre rel cnt hu.2 hmem
        exact ⟨c', List.mem_cons_of_mem c hc', hrest⟩
end

/-- C4 (amended): when no focus identifier resolves, the fallback output is
non-empty whenever the pruned bounded walk visits at least one non-root
directory at depth at most 4 holding at least one recognised source file
(the root itself is skipped by the fallback, and directories inside pruned
— excluded or dot-named — subtrees are never visited, so the original
claim's plain "at least one directory with a recognised source file" is not
enough). -/
theorem C4_fallback_nonempty (rootStr : String) (tree : FSEntry) (focusIds : List String)
    (hu : uniqNames tree = true)
    (hraw : focusResolveRaw rootStr tree focusIds = [])
    (rel : List String) (cnt : Nat)
    (hmem : (rel, cnt) ∈ codeWalk tree [])
    (hrel : rel ≠ []) (hdepth : rel.length ≤ 4) (hcnt : 0 < cnt) :
    find_focus_dirs rootStr tree focusIds ≠ [] := by
  rw [show find_focus_dirs rootStr tree focusIds =
    (if (focusResolveRaw rootStr tree focusIds).isEmpty then find_code_directories tree
     else focusResolveRaw rootStr tree focusIds) from rfl, hraw]
  show find_code_directories tree ≠ []
  have hdc : (rel, cnt) ∈ dirCounts tree := by
    rw [dirCounts, List.mem_filter]
    refine ⟨hmem, ?_⟩
    simp [hdepth, hcnt, hrel]
  have hs : (rel, cnt) ∈ sortLe countDescLe (dirCounts tree) :=
    (mem_sortLe countDescLe (dirCounts tree) (rel, cnt)).mpr hdc
  cases hsl : sortLe countDescLe (dirCounts tree) with
  | nil => rw [hsl] at hs; simp at hs
  | cons t ts =>
      have htmem : t ∈ dirCounts tree :=
        (mem_sortLe countDescLe (dirCounts tree) t).mp (hsl ▸ List.mem_cons_self t ts)
      have htwalk : t ∈ codeWalk tree [] := by
        rw [dirCounts] at htmem
        exact (List.mem_filter.mp htmem).1
      obtain ⟨suf, hsuf, hres⟩ :=
        codeWalk_resolvable tree [] t.1 t.2 hu htwalk
      rw [List.nil_append] at hsuf
      rw [find_code_directories, hsl]
      rw [show (t :: ts).take 5 = t :: ts.take 4 from rfl]
      rw [List.filter_cons]
      rw [if_pos (by rw [← hsuf] at hres; exact hres)]
      simp

theorem C4_fallback_nonempty_witness :
    find_focus_dirs "/proj" c4WitnessTree ["zzz"] ≠ [] :=
  C4_fallback_nonempty "/proj" c4WitnessTree ["zzz"] (by decide) (by decide)
    ["src"] 1 (by decide) (by decide) (by decide) (by decide)

/-- C4 (counterexample to the claim as stated): a project whose only
recognised source file lives in the project root itself.  The root is a
directory holding a `.py` file, no focus identifier resolves, yet the
fallback returns the empty list because it skips the root
(`rel_path == '.'`). -/
theorem C4_counterexample :
    countCodeFiles (FSEntry.dir "proj" [.file "main.py"]).childrenD = 1 ∧
    find_focus_dirs "/proj" (FSEntry.dir "proj" [.file "main.py"]) ["zzz"] = [] := by
  refine ⟨by decide, by decide⟩

theorem contains_iff_mem (l : List String) (a : String) :
    l.contains a = true ↔ a ∈ l :=
  List.elem_iff

theorem contains_eq_false_iff (l : List String) (a : String) :
    l.contains a = false ↔ ¬ a ∈ l := by
  rw [← contains_iff_mem l a]
  cases l.contains a <;> simp

theorem writtenNames_cons_wrote (b n c : String) (l : List AgentEvent) :
    writtenNames (.wrote b n c :: l) = n :: writtenNames l := rfl

theorem writtenNames_cons_skipM (s : String) (l : List AgentEvent) :
    writtenNames (.skipMissing s :: l) = writtenNames l := rfl

theorem writtenNames_cons_skipD (s : String) (l : List AgentEvent) :
    writtenNames (.skipDuplicate s :: l) = writtenNames l := rfl

theorem processDir_wrote (cfg : AgentCfg) (created : List String) (d b n c : String)
    (h : processDir cfg created d = .wrote b n c) :
    b = cfg.projectDirStr ∧ n = agentNameOf (pathParts d) ∧
    created.contains n = false ∧
    isDirAt cfg.projectTree (pathParts d) = true ∧
    c = agentContent (dirDescOf cfg (pathParts d))
      ((cfg.treeFiles.lookup (treeFileNameOf ((pathParts d).getLastD ""))).getD "") := by
  simp only [processDir] at h
  cases hdir : isDirAt cfg.projectTree (pathParts d) with
  | false =>
      rw [if_pos (by rw [hdir]; rfl)] at h
      cases h
  | true =>
      rw [if_neg (by rw [hdir]; simp)] at h
      cases hct : created.contains (agentNameOf (pathParts d)) with
      | true =>
          rw [if_pos hct] at h
          cases h
      | false =>
          rw [if_neg (by rw [hct]; simp)] at h
          cases h
          exact ⟨rfl, rfl, hct, rfl, rfl⟩

theorem goAgents_append (cfg : AgentCfg) :
    ∀ (as bs created : List String),
      goAgents cfg (as ++ bs) created =
        goAgents cfg as created ++
          goAgents cfg bs (created ++ writtenNames (goAgents cfg as created)) := by
  intro as
  induction as with
  | nil =>
      intro bs created
      simp [goAgents, writtenNames]
  | cons d ds ih =>
      intro bs created
      simp only [List.cons_append, goAgents]
      cases hev : processDir cfg created d with
      | wrote b n c =>
          simp only [hev, writtenNames_cons_wrote, List.append_eq]
          rw [ih]
          simp [List.append_assoc]
      | skipMissing s =>
          simp only [hev, writtenNames_cons_skipM, List.append_eq]
          rw [ih]
      | skipDuplicate s =>
          simp only [hev, writtenNames_cons_skipD, List.append_eq]
          rw [ih]

theorem goAgents_nodup (cfg : AgentCfg) :
    ∀ (ds created : List String),
      (writtenNames (goAgents cfg ds created)).Nodup ∧
      ∀ n ∈ writtenNames (goAgents cfg ds created), created.contains n = false := by
  intro ds
  induction ds with
  | nil =>
      intro created
      refine ⟨List.nodup_nil, ?_⟩
      intro n hn
      simp [goAgents, writtenNames] at hn
  | cons d ds ih =>
      intro created
      simp only [goAgents]
      cases hev : processDir cfg created d with
      | skipMissing s =>
          simp only []
          rw [writtenNames_cons_skipM]
          exact ih created
      | skipDuplicate s =>
          simp only []
          rw [writtenNames_cons_skipD]
          exact ih created
      | wrote b n c =>
          obtain ⟨_, _, hnc, _, _⟩ := processDir_wrote cfg created d b n c hev
          simp only []
          rw [writtenNames_cons_wrote]
          have iht := ih (created ++ [n])
          constructor
          · rw [List.nodup_cons]
            refine ⟨?_, iht.1⟩
            intro hmem
            have hfalse := iht.2 n hmem
            rw [contains_eq_false_iff] at hfalse
            exact hfalse (by simp)
          · intro m hm
            rcases List.mem_cons.mp hm with rfl | hm
            · exact hnc
            · have := iht.2 m hm
              rw [contains_eq_false_iff] at this ⊢
              intro hmem
              exact this (List.mem_append_left _ hmem)

/-- C9: within one run of `generate_agent_files`, the written document
names are pairwise distinct — a document once written is never written
again — and a later existing directory that derives an already-written
name produces the duplicate-skip warning event instead of a write. -/
theorem C9_no_duplicate_overwrite (cfg : AgentCfg) (ds : List String) :
    (writtenNames (generate_agent_files cfg ds)).Nodup ∧
    ∀ ds1 d ds2, ds = ds1 ++ d :: ds2 →
      isDirAt cfg.projectTree (pathParts d) = true →
      agentNameOf (pathParts d) ∈ writtenNames (generate_agent_files cfg ds1) →
      generate_agent_files cfg ds =
        generate_agent_files cfg ds1 ++
          AgentEvent.skipDuplicate (agentNameOf (pathParts d)) ::
            goAgents cfg ds2 (writtenNames (generate_agent_files cfg ds1)) := by
  constructor
  · exact (goAgents_nodup cfg ds []).1
  · intro ds1 d ds2 hds hdir hmem
    subst hds
    rw [show generate_agent_files cfg (ds1 ++ d :: ds2) =
      goAgents cfg (ds1 ++ d :: ds2) [] from rfl]
    rw [goAgents_append]
    rw [List.nil_append]
    rw [show generate_agent_files cfg ds1 = goAgents cfg ds1 [] from rfl] at hmem ⊢
    congr 1
    simp only [goAgents]
    have hpd : processDir cfg (writtenNames (goAgents cfg ds1 [])) d =
        .skipDuplicate (agentNameOf (pathParts d)) := by
      simp only [processDir]
      rw [if_neg (by rw [hdir]; simp)]
      rw [if_pos ((contains_iff_mem _ _).mpr hmem)]
    rw [hpd]

/-- C9: within one run of `generate_agent_files`, the written document
names are pairwise distinct — a document once written is never written
again — and a later existing directory that derives an already-written
name produces the duplicate-skip warning event instead of a write. -/
theorem C9_no_duplicate_overwrite_witness :
    generate_agent_files c9Cfg ["a/p/utils", "a/q/utils"] =
      generate_agent_files c9Cfg ["a/p/utils"] ++
        AgentEvent.skipDuplicate (agentNameOf (pathParts "a/q/utils")) ::
          goAgents c9Cfg [] (writtenNames (generate_agent_files c9Cfg ["a/p/utils"])) :=
  (C9_no_duplicate_overwrite c9Cfg ["a/p/utils", "a/q/utils"]).2
    ["a/p/utils"] "a/q/utils" [] rfl (by decide) (by decide)

theorem pipeWritesGo_no_skip (cfg : PipeCfg) (focusIds : List String)
    (found : List (List String)) :
    ∀ (todo processed : List (List String)),
      (∀ rel ∈ todo, ∀ pd ∈ processed, pyStartsWith (relStrOf rel) (relStrOf pd) = false) →
      todo.Pairwise (fun da db => pyStartsWith (relStrOf db) (relStrOf da) = false) →
      pipeWritesGo cfg focusIds found todo processed =
        todo.map (fun rel =>
          (treeFileNameOf (rel.getLastD ""), pipeSnap cfg focusIds found rel)) := by
  intro todo
  induction todo with
  | nil => intro processed _ _; rfl
  | cons rel rest ih =>
      intro processed hcross hpw
      rw [List.pairwise_cons] at hpw
      have hany : processed.any
          (fun pd => pyStartsWith (relStrOf rel) (relStrOf pd)) = false := by
        rw [List.any_eq_false]
        intro pd hpd
        rw [hcross rel (List.mem_cons_self rel rest) pd hpd]
        simp
      rw [pipeWritesGo]
      rw [if_neg (by rw [hany]; simp)]
      rw [List.map_cons]
      congr 1
      apply ih (processed ++ [rel])
      · intro rel' hrel' pd hpd
        rcases List.mem_append.mp hpd with hpd | hpd
        · exact hcross rel' (List.mem_cons_of_mem rel hrel') pd hpd
        · rcases List.mem_singleton.mp hpd with rfl
          exact hpw.1 rel' hrel'
      · exact hpw.2

theorem lookup_updateAssoc (m : List (String × String)) (k k' v' : String) :
    (updateAssoc m k' v').lookup k = if k == k' then some v' else m.lookup k := by
  induction m with
  | nil =>
      rw [show updateAssoc [] k' v' = [(k', v')] from rfl, List.lookup_cons]
      by_cases hk : (k == k') = true
      · simp [hk]
      · simp only [Bool.not_eq_true] at hk
        simp [hk]
  | cons ab m ih =>
      obtain ⟨a, b⟩ := ab
      rw [show updateAssoc ((a, b) :: m) k' v' =
        (if a == k' then (k', v') :: m else (a, b) :: updateAssoc m k' v') from rfl]
      by_cases hak : (a == k') = true
      · have hak' : a = k' := by rwa [beq_iff_eq] at hak
        subst hak'
        rw [if_pos hak, List.lookup_cons, List.lookup_cons]
        by_cases hka : (k == a) = true
        · simp [hka]
        · simp only [Bool.not_eq_true] at hka
          simp [hka]
      · rw [if_neg hak, List.lookup_cons, List.lookup_cons, ih]
        by_cases hka : (k == a) = true
        · have hka' : k = a := by rwa [beq_iff_eq] at hka
          have hkk : (k == k') = false := by
            rw [beq_eq_false_iff_ne]
            intro hcon
            rw [← hcon, ← hka'] at hak
            simp at hak
          simp [hka, hkk]
        · simp only [Bool.not_eq_true] at hka
          simp [hka]

theorem lookup_applyWrites :
    ∀ (ws : List (String × String)) (init : List (String × String)) (k : String),
      (applyWrites ws init).lookup k =
        match (ws.filter (fun kv => kv.1 == k)).getLast? with
        | some kv => some kv.2
        | none => init.lookup k := by
  intro ws
  induction ws with
  | nil => intro init k; rfl
  | cons kv ws ih =>
      intro init k
      rw [show applyWrites (kv :: ws) init = applyWrites ws (updateAssoc init kv.1 kv.2)
        from rfl]
      rw [ih]
      rw [List.filter_cons]
      by_cases hk : (kv.1 == k) = true
      · rw [if_pos hk]
        rw [List.getLast?_cons]
        cases hgl : (ws.filter (fun kv => kv.1 == k)).getLast? with
        | some kv2 => simp [hgl]
        | none =>
            simp only [hgl, Option.getD]
            rw [lookup_updateAssoc]
            have hk' : kv.1 = k := by
              have := hk
              rw [beq_iff_eq] at this
              exact this
            rw [if_pos (by rw [hk']; simp)]
      · rw [if_neg hk]
        cases hgl : (ws.filter (fun kv => kv.1 == k)).getLast? with
        | some kv2 => simp [hgl]
        | none =>
            simp only [hgl]
            rw [lookup_updateAssoc]
            rw [if_neg ?hne]
            case hne =>
              intro hcon
              rw [beq_iff_eq] at hcon hk
              exact hk hcon.symm

theorem treeFileNameOf_inj (x y : String) (h : treeFileNameOf x = treeFileNameOf y) :
    x = y := by
  have hd := congrArg String.data h
  simp only [treeFileNameOf, String.data_append, List.append_assoc] at hd
  apply String.ext
  exact List.append_cancel_right (List.append_cancel_left hd)

theorem goAgents_all_wrote (cfg : AgentCfg) :
    ∀ (ds created : List String),
      (∀ d ∈ ds, isDirAt cfg.projectTree (pathParts d) = true) →
      (ds.map (fun d => agentNameOf (pathParts d))).Nodup →
      (∀ d ∈ ds, created.contains (agentNameOf (pathParts d)) = false) →
      goAgents cfg ds created = ds.map (fun d =>
        AgentEvent.wrote cfg.projectDirStr (agentNameOf (pathParts d))
          (agentContent (dirDescOf cfg (pathParts d))
            ((cfg.treeFiles.lookup (treeFileNameOf ((pathParts d).getLastD ""))).getD ""))) := by
  intro ds
  induction ds with
  | nil => intro created _ _ _; rfl
  | cons d ds ih =>
      intro created hvalid hnames hfresh
      have hpd : processDir cfg created d =
          AgentEvent.wrote cfg.projectDirStr (agentNameOf (pathParts d))
            (agentContent (dirDescOf cfg (pathParts d))
              ((cfg.treeFiles.lookup
                (treeFileNameOf ((pathParts d).getLastD ""))).getD "")) := by
        simp only [processDir]
        rw [if_neg (by rw [hvalid d (List.mem_cons_self d ds)]; simp)]
        rw [if_neg (by rw [hfresh d (List.mem_cons_self d ds)]; simp)]
      simp only [goAgents, hpd, List.map_cons]
      congr 1
      rw [List.map_cons, List.nodup_cons] at hnames
      apply ih (created ++ [agentNameOf (pathParts d)])
      · intro d' hd'
        exact hvalid d' (List.mem_cons_of_mem d hd')
      · exact hnames.2
      · intro d' hd'
        rw [contains_eq_false_iff]
        intro hmem
        rcases List.mem_append.mp hmem with hmem | hmem
        · have := hfresh d' (List.mem_cons_of_mem d hd')
          rw [contains_eq_false_iff] at this
          exact this hmem
        · rcases List.mem_singleton.mp hmem with heq
          exact hnames.1 (heq ▸ List.mem_map_of_mem _ hd')

theorem getLast_filter_key (key : String) (ws1 ws2 ws3 : List (String × String))
    (p1 p2 : String × String)
    (hk1 : (p1.1 == key) = true) (hk2 : (p2.1 == key) = true)
    (h3 : ws3.filter (fun kv => kv.1 == key) = []) :
    ((ws1 ++ ((p1 :: ws2) ++ (p2 :: ws3))).filter (fun kv => kv.1 == key)).getLast? =
      some p2 := by
  rw [List.filter_append, List.filter_append, List.filter_cons, List.filter_cons,
    if_pos hk1, if_pos hk2, h3]
  rw [show ws1.filter (fun kv => kv.1 == key) ++
      (p1 :: ws2.filter (fun kv => kv.1 == key) ++ p2 :: []) =
      (ws1.filter (fun kv => kv.1 == key) ++
        p1 :: ws2.filter (fun kv => kv.1 == key)) ++ [p2] from by simp]
  exact List.getLast?_concat _

/-- C10 (amended): the snapshot cache file name is derived from the focus
directory's base name alone, so two distinct resolved focus directories
with the same base name target the same cache file.  When no directory is
skipped by the parent-prefix rule, every snapshot is written in order, the
later write overwrites the earlier, and — when the agent file names do not
collide — every emitted agent document embeds the cache content stored
under its base name, which is the snapshot of the last directory with that
base name.  (As stated the claim fails: a same-base-name directory whose
relative path string extends an earlier one's is skipped, so its snapshot
is never written.) -/
theorem C10_shared_basename (cfg : PipeCfg) (outputDirStr : String)
    (focusIds : List String) (found l1 l2 l3 : List (List String)) (d1 d2 : List String)
    (hfound : found = l1 ++ d1 :: l2 ++ d2 :: l3)
    (hpw : found.Pairwise (fun da db => pyStartsWith (relStrOf db) (relStrOf da) = false))
    (hvalid : ∀ d ∈ found, isDirAt cfg.projectTree d = true)
    (hpp : ∀ d ∈ found, pathParts (relStrOf d) = d)
    (hnames : (found.map agentNameOf).Nodup)
    (hbase : d1.getLastD "" = d2.getLastD "")
    (hne : d1 ≠ d2)
    (hlast : ∀ d ∈ l3, d.getLastD "" ≠ d2.getLastD "") :
    treeFileNameOf (d1.getLastD "") = treeFileNameOf (d2.getLastD "") ∧
    pipeTreeWrites cfg focusIds found = found.map (fun rel =>
      (treeFileNameOf (rel.getLastD ""), pipeSnap cfg focusIds found rel)) ∧
    (finalTreeFiles cfg focusIds found).lookup (treeFileNameOf (d1.getLastD "")) =
      some (pipeSnap cfg focusIds found d2) ∧
    pipeAgentEvents cfg outputDirStr focusIds found = found.map (fun d =>
      AgentEvent.wrote cfg.projectRootStr (agentNameOf d)
        (agentContent (dirDescOf (pipeAgentCfg cfg outputDirStr focusIds found) d)
          (((finalTreeFiles cfg focusIds found).lookup
            (treeFileNameOf (d.getLastD ""))).getD ""))) := by
  have hwr : pipeTreeWrites cfg focusIds found = found.map (fun rel =>
      (treeFileNameOf (rel.getLastD ""), pipeSnap cfg focusIds found rel)) := by
    rw [pipeTreeWrites]
    exact pipeWritesGo_no_skip cfg focusIds found found []
      (by intro rel _ pd hpd; simp at hpd) hpw
  refine ⟨by rw [hbase], hwr, ?_, ?_⟩
  · rw [show finalTreeFiles cfg focusIds found =
      applyWrites (pipeTreeWrites cfg focusIds found) [] from rfl, hwr,
      lookup_applyWrites]
    have hmap : ∀ g : List String → String,
        found.map (fun rel => (treeFileNameOf (rel.getLastD ""), g rel)) =
          (l1.map (fun rel => (treeFileNameOf (rel.getLastD ""), g rel))) ++
            (((treeFileNameOf (d1.getLastD ""), g d1) ::
              l2.map (fun rel => (treeFileNameOf (rel.getLastD ""), g rel))) ++
             ((treeFileNameOf (d2.getLastD ""), g d2) ::
              l3.map (fun rel => (treeFileNameOf (rel.getLastD ""), g rel)))) := by
      intro g
      rw [hfound]
      simp
    have hl3 : ∀ g : List String → String,
        ((l3.map (fun rel => (treeFileNameOf (rel.getLastD ""), g rel))).filter
          (fun kv => kv.1 == treeFileNameOf (d1.getLastD ""))) = [] := by
      intro g
      rw [List.filter_eq_nil_iff]
      intro kv hkv
      rw [List.mem_map] at hkv
      obtain ⟨d, hd, rfl⟩ := hkv
      simp only [beq_iff_eq]
      intro hcon
      have hinj := treeFileNameOf_inj _ _ hcon
      exact hlast d hd (hinj.trans hbase)
    rw [hmap (pipeSnap cfg focusIds found)]
    rw [getLast_filter_key (treeFileNameOf (d1.getLastD ""))
      (l1.map (fun rel => (treeFileNameOf (rel.getLastD ""),
        pipeSnap cfg focusIds found rel)))
      (l2.map (fun rel => (treeFileNameOf (rel.getLastD ""),
        pipeSnap cfg focusIds found rel)))
      (l3.map (fun rel => (treeFileNameOf (rel.getLastD ""),
        pipeSnap cfg focusIds found rel)))
      (treeFileNameOf (d1.getLastD ""), pipeSnap cfg focusIds found d1)
      (treeFileNameOf (d2.getLastD ""), pipeSnap cfg focusIds found d2)
      (by simp) (by rw [hbase]; simp) (hl3 (pipeSnap cfg focusIds found))]
  · have hall := goAgents_all_wrote (pipeAgentCfg cfg outputDirStr focusIds found)
      (found.map relStrOf) []
      (by
        intro s hs
        rw [List.mem_map] at hs
        obtain ⟨d, hd, rfl⟩ := hs
        show isDirAt cfg.projectTree (pathParts (relStrOf d)) = true
        rw [hpp d hd]
        exact hvalid d hd)
      (by
        rw [List.map_map]
        have heq : found.map ((fun s => agentNameOf (pathParts s)) ∘ relStrOf) =
            found.map agentNameOf := by
          apply List.map_congr_left
          intro d hd
          show agentNameOf (pathParts (relStrOf d)) = agentNameOf d
          rw [hpp d hd]
        rw [heq]
        exact hnames)
      (by intro s _; rfl)
    rw [show pipeAgentEvents cfg outputDirStr focusIds found =
      goAgents (pipeAgentCfg cfg outputDirStr focusIds found) (found.map relStrOf) []
      from rfl]
    rw [hall, List.map_map]
    apply List.map_congr_left
    intro d hd
    show AgentEvent.wrote _ (agentNameOf (pathParts (relStrOf d)))
      (agentContent (dirDescOf _ (pathParts (relStrOf d))) _) = _
    rw [hpp d hd]
    rfl

theorem C10_shared_basename_witness :
    treeFileNameOf ((["a", "kit"] : List String).getLastD "") =
        treeFileNameOf ((["b", "kit"] : List String).getLastD "") ∧
    pipeTreeWrites c10WitnessPipe ["a/kit", "b/kit"] [["a", "kit"], ["b", "kit"]] =
      ([["a", "kit"], ["b", "kit"]] : List (List String)).map (fun rel =>
        (treeFileNameOf (rel.getLastD ""),
          pipeSnap c10WitnessPipe ["a/kit", "b/kit"] [["a", "kit"], ["b", "kit"]] rel)) ∧
    (finalTreeFiles c10WitnessPipe ["a/kit", "b/kit"]
        [["a", "kit"], ["b", "kit"]]).lookup
        (treeFileNameOf ((["a", "kit"] : List String).getLastD "")) =
      some (pipeSnap c10WitnessPipe ["a/kit", "b/kit"]
        [["a", "kit"], ["b", "kit"]] ["b", "kit"]) ∧
    pipeAgentEvents c10WitnessPipe "/opt/out" ["a/kit", "b/kit"]
        [["a", "kit"], ["b", "kit"]] =
      ([["a", "kit"], ["b", "kit"]] : List (List String)).map (fun d =>
        AgentEvent.wrote c10WitnessPipe.projectRootStr (agentNameOf d)
          (agentContent
            (dirDescOf (pipeAgentCfg c10WitnessPipe "/opt/out" ["a/kit", "b/kit"]
              [["a", "kit"], ["b", "kit"]]) d)
            (((finalTreeFiles c10WitnessPipe ["a/kit", "b/kit"]
                [["a", "kit"], ["b", "kit"]]).lookup
              (treeFileNameOf (d.getLastD ""))).getD ""))) :=
  C10_shared_basename c10WitnessPipe "/opt/out" ["a/kit", "b/kit"]
    [["a", "kit"], ["b", "kit"]] [] [] [] ["a", "kit"] ["b", "kit"]
    rfl (by decide) (by decide) (by decide) (by decide) (by decide) (by decide)
    (by decide)

/-- C10 (counterexample to the claim as stated): a run resolving the two
distinct focus directories `kit` and `kitx/kit`, which share a base name.
Because `'kitx/kit'.startswith('kit')` holds, the loop skips the second
directory entirely, so only one snapshot write occurs — "both of their
snapshots are written to the same cache file" is false for this run. -/
theorem C10_counterexample :
    find_focus_dirs "/proj" c10CounterPipe.projectTree ["kit", "kitx/kit"] =
        [["kit"], ["kitx", "kit"]] ∧
    (["kit"] : List String) ≠ ["kitx", "kit"] ∧
    (["kit"] : List String).getLastD "" = (["kitx", "kit"] : List String).getLastD "" ∧
    (pipeTreeWrites c10CounterPipe ["kit", "kitx/kit"]
        [["kit"], ["kitx", "kit"]]).map Prod.fst = [treeFileNameOf "kit"] := by
  refine ⟨by decide, by decide, by decide, by decide⟩
